import Mathlib

/-!
Verification of the command-line parsing and word-wrapping engine of
llava-cpp-server (`src/util/command_line.cpp`, `src/util/format.cpp`,
`src/util/command_line.hpp`).

The C++ sources are shallowly embedded: strings are `String`/`List Char`,
`int64_t` is `Int` with explicit saturation bounds, the configuration tree
(whose header `util/config.hpp` is not among the sources) is modelled from
the spec, and code that throws (`std::logic_error`) returns `Except`.
-/

namespace LlavaServer

/-! ## util/format.cpp : text primitives -/

/-- C `isspace` in the default locale (as used by `format.cpp`). -/
def cpp_isspace (c : Char) : Bool :=
  c == ' ' || c == '\t' || c == '\n' || c == '\r' ||
  c == Char.ofNat 11 || c == Char.ofNat 12

/-- `util::format::split(separator)` from `format.hpp`: splits on every
occurrence of the separator; an empty input yields one empty part, and
adjacent/trailing separators yield empty parts. -/
def split_chars (sep : Char) : List Char → List (List Char)
  | [] => [[]]
  | c :: cs =>
    if c = sep then [] :: split_chars sep cs
    else
      match split_chars sep cs with
      | [] => [[c]]
      | p :: ps => (c :: p) :: ps

/-- Order-preserving concatenation of per-element results (the accumulation
of `wrap_line` outputs into the shared `out` vector in `wrap_words`). -/
def concat_map (f : α → List β) : List α → List β
  | [] => []
  | a :: l => f a ++ concat_map f l

/-- `word_wrapper::gobble_trailing_whitespace`: move `end_idx` left past
whitespace.  Out-of-range reads yield `'\0'` (never whitespace), matching
`std::string` semantics at `size()`. -/
def gobble_trailing_whitespace (s : List Char) : Nat → Nat
  | 0 => 0
  | e + 1 =>
    if cpp_isspace (s.getD e (Char.ofNat 0)) then gobble_trailing_whitespace s e
    else e + 1

/-- `word_wrapper::gobble_leading_whitespace`: move `start_idx` right past
whitespace, stopping at the end of the string. -/
def gobble_leading_whitespace (s : List Char) (start : Nat) : Nat :=
  if h : start < s.length then
    if cpp_isspace (s.get ⟨start, h⟩) then gobble_leading_whitespace s (start + 1)
    else start
  else start
termination_by s.length - start

/-- The scanning loop of `word_wrapper::wrap_line` (format.cpp:67-92), from
loop entry at position `i`, current `column`, and most recent whitespace
position `last_space`.  Returns `none` when the loop runs off the end of the
string (no further cut), or `some (line_end, next_start)` when the final
allowed column is reached: `line_end` is the cut position (last space with
trailing whitespace gobbled, or a hard stop at `i`), and `next_start` is the
start of the next line after gobbling leading whitespace. -/
def line_cut (s : List Char) (i : Nat) : Option Nat → Nat
  | none => i
  | some sp => gobble_trailing_whitespace s sp

def wrap_scan (s : List Char) (max_column : Nat) (i column : Nat)
    (last_space : Option Nat) : Option (Nat × Nat) :=
  if h : i < s.length then
    let last_space' := if cpp_isspace (s.get ⟨i, h⟩) then some i else last_space
    if column = max_column then
      let line_end := line_cut s i last_space'
      some (line_end, gobble_leading_whitespace s line_end)
    else
      wrap_scan s max_column (i + 1) (column + 1) last_space'
  else none
termination_by s.length - i

/-! Facts about the gobbling and scanning helpers, needed both for the
termination of the line-splitting loop and for the wrapping claims. -/

theorem gobble_trailing_le (s : List Char) (e : Nat) :
    gobble_trailing_whitespace s e ≤ e := by
  induction e with
  | zero => simp [gobble_trailing_whitespace]
  | succ n ih =>
    rw [gobble_trailing_whitespace]
    split
    · exact Nat.le_trans ih (Nat.le_succ n)
    · exact Nat.le_refl _

theorem gobble_trailing_spaces (s : List Char) (e : Nat) :
    ∀ j, gobble_trailing_whitespace s e ≤ j → j < e →
      cpp_isspace (s.getD j (Char.ofNat 0)) = true := by
  induction e with
  | zero => intro j _ hj; omega
  | succ n ih =>
    intro j h1 h2
    rw [gobble_trailing_whitespace] at h1
    by_cases hs : cpp_isspace (s.getD n (Char.ofNat 0)) = true
    · rw [if_pos hs] at h1
      rcases Nat.lt_or_ge j n with hlt | hge
      · exact ih j h1 hlt
      · have : j = n := by omega
        subst this; exact hs
    · rw [if_neg hs] at h1; omega

theorem gobble_leading_ge (s : List Char) (start : Nat) :
    start ≤ gobble_leading_whitespace s start := by
  rw [gobble_leading_whitespace]
  split
  · split
    · have := gobble_leading_ge s (start + 1)
      omega
    · exact Nat.le_refl _
  · exact Nat.le_refl _
termination_by s.length - start

theorem gobble_leading_skips_fuel (s : List Char) :
    ∀ fuel start sp, sp - start ≤ fuel → start ≤ sp → sp < s.length →
      (∀ t, start ≤ t → t ≤ sp → cpp_isspace (s.getD t (Char.ofNat 0)) = true) →
      sp + 1 ≤ gobble_leading_whitespace s start := by
  intro fuel
  induction fuel with
  | zero =>
    intro start sp hfuel h1 h2 h3
    have hse : start = sp := by omega
    subst hse
    rw [gobble_leading_whitespace]
    rw [dif_pos h2]
    have hsp : cpp_isspace (s.get ⟨start, h2⟩) = true := by
      have := h3 start (Nat.le_refl _) (Nat.le_refl _)
      rwa [List.getD_eq_get _ _ h2] at this
    rw [if_pos hsp]
    have := gobble_leading_ge s (start + 1)
    omega
  | succ n ih =>
    intro start sp hfuel h1 h2 h3
    rcases Nat.eq_or_lt_of_le h1 with heq | hlt
    · subst heq
      rw [gobble_leading_whitespace, dif_pos h2]
      have hsp : cpp_isspace (s.get ⟨start, h2⟩) = true := by
        have := h3 start (Nat.le_refl _) (Nat.le_refl _)
        rwa [List.getD_eq_get _ _ h2] at this
      rw [if_pos hsp]
      have := gobble_leading_ge s (start + 1)
      omega
    · have hstart : start < s.length := by omega
      rw [gobble_leading_whitespace, dif_pos hstart]
      have hsp : cpp_isspace (s.get ⟨start, hstart⟩) = true := by
        have := h3 start (Nat.le_refl _) (Nat.le_of_lt hlt)
        rwa [List.getD_eq_get _ _ hstart] at this
      rw [if_pos hsp]
      exact ih (start + 1) sp (by omega) (by omega) h2
        (fun t ht1 ht2 => h3 t (by omega) ht2)

theorem gobble_leading_skips (s : List Char) (start sp : Nat)
    (h1 : start ≤ sp) (h2 : sp < s.length)
    (h3 : ∀ t, start ≤ t → t ≤ sp → cpp_isspace (s.getD t (Char.ofNat 0)) = true) :
    sp + 1 ≤ gobble_leading_whitespace s start :=
  gobble_leading_skips_fuel s (sp - start) start sp (Nat.le_refl _) h1 h2 h3

/-- The invariant carried for the `last_space` argument of `wrap_scan`:
every recorded position lies between the start of the current line and the
current scan position, inside the string, and holds whitespace. -/
def last_space_inv (s : List Char) (i0 i : Nat) (ls : Option Nat) : Prop :=
  ∀ sp, ls = some sp → i0 ≤ sp ∧ sp ≤ i ∧ sp < s.length ∧
    cpp_isspace (s.getD sp (Char.ofNat 0)) = true

theorem wrap_scan_some_spec_fuel (s : List Char) (m : Nat) (hm : 1 ≤ m) :
    ∀ fuel i column ls e n i0, s.length - i ≤ fuel → column ≤ m →
      i = i0 + column →
      last_space_inv s i0 i ls →
      wrap_scan s m i column ls = some (e, n) →
      i0 < n ∧ i0 < s.length ∧ e ≤ i0 + m := by
  intro fuel
  induction fuel with
  | zero =>
    intro i column ls e n i0 hfuel _ _ _ hscan
    rw [wrap_scan] at hscan
    rw [dif_neg (by omega)] at hscan
    exact absurd hscan (by simp)
  | succ fuel ih =>
    intro i column ls e n i0 hfuel hcm hic hinv hscan
    rw [wrap_scan] at hscan
    have hi : i < s.length := by
      by_contra hc
      rw [dif_neg hc] at hscan
      exact absurd hscan (by simp)
    rw [dif_pos hi] at hscan
    simp only [] at hscan
    have hi0lt : i0 < s.length := by omega
    have hcut : ∀ sp, i0 ≤ sp → sp < s.length →
        cpp_isspace (s.getD sp (Char.ofNat 0)) = true →
        some (gobble_trailing_whitespace s sp,
          gobble_leading_whitespace s (gobble_trailing_whitespace s sp)) =
          some (e, n) → sp ≤ i0 + m →
        i0 < n ∧ i0 < s.length ∧ e ≤ i0 + m := by
      intro sp hsp1 hsp2 hsp3 hse hsp4
      simp only [Option.some.injEq, Prod.mk.injEq] at hse
      obtain ⟨he, hn⟩ := hse
      have hele : e ≤ sp := he ▸ gobble_trailing_le s sp
      have hskip : sp + 1 ≤ gobble_leading_whitespace s e := by
        refine gobble_leading_skips s e sp hele hsp2 ?_
        intro t ht1 ht2
        rcases Nat.lt_or_ge t sp with h | h
        · exact gobble_trailing_spaces s sp t (by omega) h
        · have : t = sp := by omega
          subst this; exact hsp3
      rw [he] at hn
      exact ⟨by omega, hi0lt, by omega⟩
    by_cases hws : cpp_isspace (s.get ⟨i, hi⟩) = true
    · rw [if_pos hws] at hscan
      by_cases hcol : column = m
      · rw [if_pos hcol] at hscan
        simp only [line_cut] at hscan
        refine hcut i (by omega) hi ?_ hscan (by omega)
        rw [List.getD_eq_getElem _ _ hi]
        exact hws
      · rw [if_neg hcol] at hscan
        refine ih (i + 1) (column + 1) (some i) e n i0 (by omega) (by omega)
          (by omega) ?_ hscan
        intro sp hsp
        cases hsp
        refine ⟨by omega, by omega, hi, ?_⟩
        rw [List.getD_eq_getElem _ _ hi]
        exact hws
    · rw [if_neg hws] at hscan
      by_cases hcol : column = m
      · rw [if_pos hcol] at hscan
        cases ls with
        | none =>
          simp only [line_cut, Option.some.injEq, Prod.mk.injEq] at hscan
          obtain ⟨he, hn⟩ := hscan
          have hg := gobble_leading_ge s i
          exact ⟨by omega, hi0lt, by omega⟩
        | some sp =>
          obtain ⟨hsp1, hsple, hsp2, hsp3⟩ := hinv sp rfl
          simp only [line_cut] at hscan
          exact hcut sp hsp1 hsp2 hsp3 hscan (by omega)
      · rw [if_neg hcol] at hscan
        refine ih (i + 1) (column + 1) ls e n i0 (by omega) (by omega) (by omega)
          ?_ hscan
        intro sp hsp
        obtain ⟨a, b, c, d⟩ := hinv sp hsp
        exact ⟨a, by omega, c, d⟩

theorem wrap_scan_some_spec (s : List Char) (m : Nat) (hm : 1 ≤ m)
    (i column : Nat) (ls : Option Nat) (e n i0 : Nat) (hcm : column ≤ m)
    (hic : i = i0 + column) (hinv : last_space_inv s i0 i ls)
    (hscan : wrap_scan s m i column ls = some (e, n)) :
    i0 < n ∧ i0 < s.length ∧ e ≤ i0 + m :=
  wrap_scan_some_spec_fuel s m hm (s.length - i) i column ls e n i0
    (Nat.le_refl _) hcm hic hinv hscan

theorem wrap_scan_none_of_short_fuel (s : List Char) (m : Nat) :
    ∀ fuel i column ls, s.length - i ≤ fuel → column ≤ m →
      s.length ≤ i + (m - column) →
      wrap_scan s m i column ls = none := by
  intro fuel
  induction fuel with
  | zero =>
    intro i column ls hfuel _ _
    rw [wrap_scan, dif_neg (by omega)]
  | succ fuel ih =>
    intro i column ls hfuel hcm hshort
    rw [wrap_scan]
    by_cases hi : i < s.length
    · rw [dif_pos hi]
      simp only []
      have hcol : column ≠ m := by
        intro hc; subst hc; omega
      rw [if_neg hcol]
      exact ih (i + 1) (column + 1) _ (by omega) (by omega) (by omega)
    · rw [dif_neg hi]

theorem wrap_scan_none_of_short (s : List Char) (m : Nat) (i column : Nat)
    (ls : Option Nat) (hcm : column ≤ m) (hshort : s.length ≤ i + (m - column)) :
    wrap_scan s m i column ls = none :=
  wrap_scan_none_of_short_fuel s m (s.length - i) i column ls (Nat.le_refl _)
    hcm hshort

theorem wrap_scan_none_le_fuel (s : List Char) (m : Nat) :
    ∀ fuel i column ls, s.length - i ≤ fuel → column ≤ m →
      wrap_scan s m i column ls = none →
      s.length ≤ i + (m - column) := by
  intro fuel
  induction fuel with
  | zero => intro i column ls hfuel _ _; omega
  | succ fuel ih =>
    intro i column ls hfuel hcm hscan
    rw [wrap_scan] at hscan
    by_cases hi : i < s.length
    · rw [dif_pos hi] at hscan
      simp only [] at hscan
      by_cases hcol : column = m
      · rw [if_pos hcol] at hscan
        exact absurd hscan (by simp)
      · rw [if_neg hcol] at hscan
        have := ih (i + 1) (column + 1) _ (by omega) (by omega) hscan
        omega
    · omega

theorem wrap_scan_none_le (s : List Char) (m : Nat) (i column : Nat)
    (ls : Option Nat) (hcm : column ≤ m)
    (hscan : wrap_scan s m i column ls = none) :
    s.length ≤ i + (m - column) :=
  wrap_scan_none_le_fuel s m (s.length - i) i column ls (Nat.le_refl _) hcm hscan

/-- `substr`-style slice: the characters of `s` at indices `[a, b)`
(`out->emplace_back(s, a, b - a)`). -/
def slice (s : List Char) (a b : Nat) : List Char :=
  (s.drop a).take (b - a)

/-- The outer loop of `word_wrapper::wrap_line` (format.cpp:61-94), emitting
one line per cut and the remainder as the final line.  Termination: each cut
strictly advances the start of the next line (`wrap_scan_some_spec`).
`max_column = m_columns - 1`, which is at least 1 because the constructor
clamps `m_columns` to at least 2. -/
def wrap_line_go (s : List Char) (max_column : Nat) (hm : 1 ≤ max_column)
    (line_start : Nat) : List (List Char) :=
  match hscan : wrap_scan s max_column line_start 0 none with
  | none => [slice s line_start s.length]
  | some (line_end, next_start) =>
    slice s line_start line_end ::
      wrap_line_go s max_column hm next_start
termination_by s.length - line_start
decreasing_by
  have := wrap_scan_some_spec s max_column hm line_start 0 none line_end
    next_start line_start (by omega) (by omega)
    (fun sp h => by exact absurd h (by simp)) hscan
  omega

/-- The clamp in the `word_wrapper` constructor: `columns < 2 ? 2 : columns`. -/
def word_wrapper_columns (columns : Nat) : Nat :=
  if columns < 2 then 2 else columns

theorem one_le_word_wrapper_max_column (columns : Nat) :
    1 ≤ word_wrapper_columns columns - 1 := by
  unfold word_wrapper_columns
  split <;> omega

/-- `word_wrapper::wrap_line` on a single newline-free segment, with
`max_column = m_columns - 1` (room for the implicit newline). -/
def wrap_line (columns : Nat) (s : List Char) : List (List Char) :=
  wrap_line_go s (word_wrapper_columns columns - 1)
    (one_le_word_wrapper_max_column columns) 0

/-- `word_wrapper::wrap_words`: split the text on embedded newlines and wrap
each segment in order into the shared output vector. -/
def wrap_words (columns : Nat) (str : List Char) : List (List Char) :=
  concat_map (wrap_line columns) (split_chars '\n' str)

/-- Joining a list of lines with newline characters (the inverse operation a
caller performs before re-wrapping already wrapped text). -/
def join_newlines : List (List Char) → List Char
  | [] => []
  | [l] => l
  | l :: ls => l ++ '\n' :: join_newlines ls

/-! Properties of the wrapping primitives. -/

theorem slice_subset (s : List Char) (a b : Nat) : slice s a b ⊆ s :=
  fun _ hc => List.drop_subset a s (List.take_subset _ _ hc)

theorem slice_length_le (s : List Char) (a b : Nat) :
    (slice s a b).length ≤ b - a := by
  simp only [slice, List.length_take]
  omega

theorem slice_zero_length (s : List Char) : slice s 0 s.length = s := by
  simp [slice]

theorem wrap_line_go_ne_nil (s : List Char) (m : Nat) (hm : 1 ≤ m)
    (start : Nat) : wrap_line_go s m hm start ≠ [] := by
  rw [wrap_line_go]
  split <;> simp

theorem wrap_line_go_spec_fuel (s : List Char) (m : Nat) (hm : 1 ≤ m) :
    ∀ fuel start, s.length - start ≤ fuel →
      ∀ l ∈ wrap_line_go s m hm start, l.length ≤ m ∧ ∀ c ∈ l, c ∈ s := by
  intro fuel
  induction fuel with
  | zero =>
    intro start hfuel l hl
    rw [wrap_line_go] at hl
    have hnone : wrap_scan s m start 0 none = none :=
      wrap_scan_none_of_short s m start 0 none (by omega) (by omega)
    split at hl
    · simp only [List.mem_singleton] at hl
      subst hl
      refine ⟨?_, fun c hc => slice_subset s start s.length hc⟩
      have := slice_length_le s start s.length
      omega
    · next heq => rw [hnone] at heq; exact absurd heq (by simp)
  | succ fuel ih =>
    intro start hfuel l hl
    rw [wrap_line_go] at hl
    split at hl
    · next heq =>
      simp only [List.mem_singleton] at hl
      subst hl
      have hle := wrap_scan_none_le s m start 0 none (by omega) heq
      refine ⟨?_, fun c hc => slice_subset s start s.length hc⟩
      have := slice_length_le s start s.length
      omega
    · next line_end next_start heq =>
      have hspec := wrap_scan_some_spec s m hm start 0 none line_end next_start
        start (by omega) (by omega) (fun sp h => by exact absurd h (by simp)) heq
      simp only [List.mem_cons] at hl
      rcases hl with hl | hl
      · subst hl
        refine ⟨?_, fun c hc => slice_subset s start line_end hc⟩
        have := slice_length_le s start line_end
        omega
      · exact ih next_start (by omega) l hl

theorem wrap_line_go_spec (s : List Char) (m : Nat) (hm : 1 ≤ m) (start : Nat) :
    ∀ l ∈ wrap_line_go s m hm start, l.length ≤ m ∧ ∀ c ∈ l, c ∈ s :=
  wrap_line_go_spec_fuel s m hm (s.length - start) start (Nat.le_refl _)

theorem wrap_line_go_short (s : List Char) (m : Nat) (hm : 1 ≤ m)
    (h : s.length ≤ m) : wrap_line_go s m hm 0 = [s] := by
  rw [wrap_line_go]
  split
  · rw [slice_zero_length]
  · next line_end next_start heq =>
    have : wrap_scan s m 0 0 none = none :=
      wrap_scan_none_of_short s m 0 0 none (by omega) (by omega)
    rw [this] at heq
    exact absurd heq (by simp)

theorem split_chars_ne_nil (sep : Char) (l : List Char) :
    split_chars sep l ≠ [] := by
  induction l with
  | nil => simp [split_chars]
  | cons c cs ih =>
    rw [split_chars]
    split
    · simp
    · split
      · simp
      · simp

theorem split_chars_no_sep (sep : Char) (l : List Char) (h : sep ∉ l) :
    split_chars sep l = [l] := by
  induction l with
  | nil => rfl
  | cons c cs ih =>
    rw [split_chars]
    have hc : ¬c = sep := fun hc => h (by simp [hc])
    rw [if_neg hc]
    have := ih (fun hm => h (List.mem_cons_of_mem c hm))
    rw [this]

theorem split_chars_append_sep (sep : Char) (l r : List Char) (h : sep ∉ l) :
    split_chars sep (l ++ sep :: r) = l :: split_chars sep r := by
  induction l with
  | nil => simp [split_chars]
  | cons c cs ih =>
    have hc : ¬c = sep := fun hc => h (by simp [hc])
    rw [List.cons_append, split_chars, if_neg hc,
      ih (fun hm => h (List.mem_cons_of_mem c hm))]

theorem mem_split_chars_no_sep (sep : Char) (l : List Char) :
    ∀ p ∈ split_chars sep l, sep ∉ p := by
  induction l with
  | nil =>
    intro p hp
    simp only [split_chars, List.mem_singleton] at hp
    subst hp; simp
  | cons c cs ih =>
    intro p hp
    rw [split_chars] at hp
    by_cases hc : c = sep
    · rw [if_pos hc] at hp
      simp only [List.mem_cons] at hp
      rcases hp with hp | hp
      · subst hp; simp
      · exact ih p hp
    · rw [if_neg hc] at hp
      rcases hrec : split_chars sep cs with _ | ⟨q, qs⟩
      · exact absurd hrec (split_chars_ne_nil sep cs)
      · rw [hrec] at hp
        simp only [List.mem_cons] at hp
        rcases hp with hp | hp
        · subst hp
          intro hmem
          rcases List.mem_cons.mp hmem with h1 | h1
          · exact hc h1.symm
          · exact ih q (by rw [hrec]; exact List.mem_cons_self q qs) h1
        · exact ih p (by rw [hrec]; exact List.mem_cons_of_mem q hp)

theorem split_join_newlines :
    ∀ L : List (List Char), L ≠ [] → (∀ l ∈ L, '\n' ∉ l) →
      split_chars '\n' (join_newlines L) = L := by
  intro L
  induction L with
  | nil => intro h; exact absurd rfl h
  | cons l ls ih =>
    intro _ hnl
    cases ls with
    | nil =>
      rw [join_newlines]
      exact split_chars_no_sep '\n' l (hnl l (List.mem_cons_self l []))
    | cons l2 ls2 =>
      have hjoin : join_newlines (l :: l2 :: ls2) =
          l ++ '\n' :: join_newlines (l2 :: ls2) := rfl
      rw [hjoin, split_chars_append_sep '\n' l (join_newlines (l2 :: ls2))
        (hnl l (List.mem_cons_self l (l2 :: ls2)))]
      rw [ih (List.cons_ne_nil l2 ls2) (fun p hp => hnl p (List.mem_cons_of_mem l hp))]

theorem concat_map_forall (p : β → Prop) (f : α → List β) (l : List α)
    (h : ∀ a ∈ l, ∀ b ∈ f a, p b) : ∀ b ∈ concat_map f l, p b := by
  induction l with
  | nil => intro b hb; simp [concat_map] at hb
  | cons a as ih =>
    intro b hb
    rw [concat_map] at hb
    rcases List.mem_append.mp hb with hb | hb
    · exact h a (List.mem_cons_self a as) b hb
    · exact ih (fun x hx => h x (List.mem_cons_of_mem a hx)) b hb

theorem concat_map_id_of (f : List Char → List (List Char))
    (l : List (List Char)) (h : ∀ a ∈ l, f a = [a]) : concat_map f l = l := by
  induction l with
  | nil => rfl
  | cons a as ih =>
    rw [concat_map, h a (List.mem_cons_self a as),
      ih (fun x hx => h x (List.mem_cons_of_mem a hx))]
    rfl

theorem concat_map_ne_nil (f : α → List β) (l : List α) (hl : l ≠ [])
    (h : ∀ a ∈ l, f a ≠ []) : concat_map f l ≠ [] := by
  cases l with
  | nil => exact absurd rfl hl
  | cons a as =>
    rw [concat_map]
    intro hc
    rcases List.append_eq_nil.mp hc with ⟨h1, _⟩
    exact h a (List.mem_cons_self a as) h1

theorem length_le_length_concat_map (f : α → List β) (l : List α)
    (h : ∀ a ∈ l, f a ≠ []) : l.length ≤ (concat_map f l).length := by
  induction l with
  | nil => simp [concat_map]
  | cons a as ih =>
    rw [concat_map, List.length_append, List.length_cons]
    have h1 : 1 ≤ (f a).length := by
      have := h a (List.mem_cons_self a as)
      cases hfa : f a with
      | nil => exact absurd hfa this
      | cons x xs => simp
    have h2 := ih (fun x hx => h x (List.mem_cons_of_mem a hx))
    omega

theorem wrap_words_line_bounds (columns : Nat) (str : List Char) :
    ∀ l ∈ wrap_words columns str,
      l.length ≤ word_wrapper_columns columns - 1 ∧ '\n' ∉ l := by
  intro l hl
  unfold wrap_words at hl
  refine concat_map_forall
    (fun b => b.length ≤ word_wrapper_columns columns - 1 ∧ '\n' ∉ b)
    (wrap_line columns) (split_chars '\n' str) ?_ l hl
  intro seg hseg b hb
  have hspec := wrap_line_go_spec seg (word_wrapper_columns columns - 1)
    (one_le_word_wrapper_max_column columns) 0 b hb
  refine ⟨hspec.1, fun hnlb => ?_⟩
  exact mem_split_chars_no_sep '\n' str seg hseg (hspec.2 '\n' hnlb)

/-- Claim C9: word wrapping at a fixed width is idempotent — joining the
wrapped lines with newlines and wrapping the joined text again at the same
width reproduces exactly the same sequence of lines. -/
theorem claim_C9 (columns : Nat) (str : List Char) :
    wrap_words columns (join_newlines (wrap_words columns str)) =
      wrap_words columns str := by
  have hbounds := wrap_words_line_bounds columns str
  have hne : wrap_words columns str ≠ [] := by
    unfold wrap_words
    exact concat_map_ne_nil _ _ (split_chars_ne_nil '\n' str)
      (fun seg _ => wrap_line_go_ne_nil seg _ _ 0)
  conv_lhs => rw [wrap_words]
  rw [split_join_newlines (wrap_words columns str) hne
    (fun l hl => (hbounds l hl).2)]
  refine concat_map_id_of _ _ ?_
  intro l hl
  exact wrap_line_go_short l (word_wrapper_columns columns - 1)
    (one_le_word_wrapper_max_column columns) (hbounds l hl).1

/-- Claim C10: for every input (including the empty string) `wrap_words`
returns a non-empty vector of lines, and each segment between newlines
contributes at least one line — so callers such as `print_usage` may
unconditionally index `lines[0]`. -/
theorem claim_C10 (columns : Nat) (str : List Char) :
    wrap_words columns str ≠ [] ∧
      (split_chars '\n' str).length ≤ (wrap_words columns str).length := by
  constructor
  · unfold wrap_words
    exact concat_map_ne_nil _ _ (split_chars_ne_nil '\n' str)
      (fun seg _ => wrap_line_go_ne_nil seg _ _ 0)
  · unfold wrap_words
    exact length_le_length_concat_map _ _
      (fun seg _ => wrap_line_go_ne_nil seg _ _ 0)

/-! ## util/format.cpp : string utilities used by the parser -/

/-- `util::to_lower` (ASCII `::tolower` applied characterwise). -/
def to_lower (s : String) : String :=
  String.mk (s.toList.map Char.toLower)

/-- `util::format::split` lifted to `String`s, as used for multi-parameter
value lists and constant defaults. -/
def format_split (sep : Char) (s : String) : List String :=
  (split_chars sep s.toList).map String.mk

def INT64_MAX : Int := 9223372036854775807

def INT64_MIN : Int := -9223372036854775808

def digits_to_nat (ds : List Char) : Nat :=
  ds.foldl (fun a c => 10 * a + (c.toNat - 48)) 0

/-- `std::istringstream >> int64_t` (C++11 `num_get`): skip leading
whitespace, read an optional sign and a run of decimal digits.  No digits →
extraction fails and 0 is stored; overflow → extraction fails and the
saturated extreme is stored; trailing characters are left unread and do not
affect success.  Returns (extraction succeeded, stored value). -/
def parse_int64 (s : List Char) : Bool × Int :=
  let s1 := s.dropWhile (fun c => cpp_isspace c)
  let body := fun (neg : Bool) (s2 : List Char) =>
    let ds := s2.takeWhile Char.isDigit
    if ds.isEmpty then (false, (0 : Int))
    else
      let v : Int := (if neg then (-1 : Int) else 1) * (digits_to_nat ds : Int)
      if v > INT64_MAX then (false, INT64_MAX)
      else if v < INT64_MIN then (false, INT64_MIN)
      else (true, v)
  match s1 with
  | '-' :: r => body true r
  | '+' :: r => body false r
  | r => body false r

/-- `util::parse_bool` (format.cpp): case-insensitive true/on/yes and
false/off/no, otherwise C++ `operator>>` for `bool` (numeric parse; 0 is
false, any other successfully parsed value is true, a failed parse leaves
the value-initialized `false`).  `!util::stricmp(a,b)` is case-insensitive
equality for ASCII. -/
def parse_bool (str : String) : Bool :=
  if to_lower str == "true" || to_lower str == "on" || to_lower str == "yes" then
    true
  else if to_lower str == "false" || to_lower str == "off" || to_lower str == "no" then
    false
  else
    let r := parse_int64 str.toList
    r.1 && decide (r.2 ≠ 0)

/-! ## The configuration tree (external collaborator) -/

/-- Modelled from the spec: the hierarchical configuration tree
(`util::config::Node`, header `util/config.hpp`) is not among the sources.
Per §1/§6 of the spec it is an external collaborator exposing: set a scalar
value at a key, get-or-create a child node at a key, add a named child
holding a scalar value, remove all children of a node, and read a value with
a type-aware default when absent.  We model the slice the parser touches as
an association list from destination key to a value plus named children. -/
structure ConfigEntry where
  value : String
  children : List (String × String)
deriving DecidableEq, Repr

/-- Modelled from the spec: the destination tree keyed by destination keys. -/
abbrev Config := List (String × ConfigEntry)

/-- Modelled from the spec: `Node::Set(key, value)` — set a scalar value at a
key, creating the node if needed and keeping existing children. -/
def config_set (cfg : Config) (key value : String) : Config :=
  if cfg.any (fun kv => kv.1 == key) then
    cfg.map (fun kv => if kv.1 == key then (kv.1, { kv.2 with value := value }) else kv)
  else cfg ++ [(key, ⟨value, []⟩)]

/-- Modelled from the spec: `Node::Get(key).RemoveChildren()` — remove all
children of the node at a key (get-or-create). -/
def config_remove_children (cfg : Config) (key : String) : Config :=
  if cfg.any (fun kv => kv.1 == key) then
    cfg.map (fun kv => if kv.1 == key then (kv.1, { kv.2 with children := [] }) else kv)
  else cfg ++ [(key, ⟨"", []⟩)]

/-- Modelled from the spec: `Node::Get(key).Add(name, value)` — append a named
child with a scalar value under the node at a key (get-or-create). -/
def config_add_child (cfg : Config) (key child_name child_value : String) : Config :=
  if cfg.any (fun kv => kv.1 == key) then
    cfg.map (fun kv =>
      if kv.1 == key then (kv.1, { kv.2 with children := kv.2.children ++ [(child_name, child_value)] })
      else kv)
  else cfg ++ [(key, ⟨"", [(child_name, child_value)]⟩)]

def config_lookup (cfg : Config) (key : String) : Option ConfigEntry :=
  (cfg.find? (fun kv => kv.1 == key)).map (fun kv => kv.2)

/-- Modelled from the spec: `Node::ValueAsDefault<bool>(default)` — the
type-aware read used to detect a requested help flag: the stored scalar
parsed as a boolean, or the default when the key is absent. -/
def value_as_default_bool (cfg : Config) (key : String) (default : Bool) : Bool :=
  match config_lookup cfg key with
  | none => default
  | some e => parse_bool e.value

/-! ## util/command_line.cpp : data model -/

/-- The diagnostics emitted via `LOG_ERROR` by the parser and validators. -/
inductive Diag where
  | argMustBeBool (option_name : String) (parameter_num : Nat)
  | argOutOfRange (option_name : String) (parameter_num : Nat) (lower upper : Int)
  | argNotInteger (option_name : String) (parameter_num : Nat)
  | expectsParam (name : String)
  | wrongParamCount (name : String) (expected got : Nat)
  | invalidOption (name : String)
  | missingRequired (name : String)
  | nameUsedMultipleTimes (name : String)
  | mustHaveLongName (idx : Nat)
  | forbiddenEquals (name : String)
deriving DecidableEq, Repr

/-- Observable events of one parsing run: diagnostics and help rendering. -/
inductive Event where
  | diag (d : Diag)
  | helpShown
deriving DecidableEq, Repr

/-- The `std::logic_error`s thrown by the engine: an ill-specified definition
set (`validate_definition`), and `store_inverse_bool_action` applied to a
multi-parameter option. -/
inductive DefException where
  | ill_specified
  | inverse_bool_multi
deriving DecidableEq, Repr

/-- `detail::parameter_definition` and its three concrete subclasses
(string / boolean / integer slots).  The integer variant carries
`lower_bound`, `upper_bound` and `bounds_check_required`. -/
inductive ParamDef where
  | stringParam (name : String)
  | booleanParam (name : String)
  | integerParam (name : String) (lower_bound upper_bound : Int)
      (bounds_check_required : Bool)
deriving DecidableEq, Repr

def ParamDef.name : ParamDef → String
  | .stringParam n => n
  | .booleanParam n => n
  | .integerParam n _ _ _ => n

/-- `boolean_parameter_definition::is_boolean` on the slot list head together
with the size test of `is_switch`. -/
def ParamDef.is_boolean : ParamDef → Bool
  | .booleanParam _ => true
  | _ => false

/-- `integer_parameter_definition(name, lower, upper)`: the member
initializers run before the constructor body, so the body's swap of the
by-value `lower`/`upper` parameters has no effect on the already-initialized
`const` members — the stored bounds are exactly the arguments as passed. -/
def integer_with_bounds (name : String) (lower upper : Int) : ParamDef :=
  ParamDef.integerParam name lower upper true

/-- The integer slot constructor as the spec describes it: "if declared with
`lower > upper` the bounds are swapped at construction". -/
def spec_integer_with_bounds (name : String) (lower upper : Int) : ParamDef :=
  if lower > upper then ParamDef.integerParam name upper lower true
  else ParamDef.integerParam name lower upper true

/-- The virtual `validate(option_name, value, parameter_num)` of each
parameter definition; `some d` is a failed validation emitting diagnostic
`d`, `none` is success.  String slots use the base class's always-pass
implementation; boolean slots accept the config-compatible literals;
integer slots run the stream extraction and then the bounds test on the
stored value (command_line.cpp:69-87). -/
def parameter_validate (p : ParamDef) (option_name value : String)
    (parameter_num : Nat) : Option Diag :=
  match p with
  | .stringParam _ => none
  | .booleanParam _ =>
    let s := to_lower value
    let valid := s == "true" || s == "false" || s == "yes" || s == "no" ||
      s == "on" || s == "off" || s == "1" || s == "0"
    if valid then none else some (Diag.argMustBeBool option_name parameter_num)
  | .integerParam _ lower upper required =>
    let r := parse_int64 value.toList
    let not_an_integer := !r.1
    let out_of_bounds := if required then !(decide (lower ≤ r.2 ∧ r.2 ≤ upper)) else false
    if out_of_bounds then some (Diag.argOutOfRange option_name parameter_num lower upper)
    else if not_an_integer then some (Diag.argNotInteger option_name parameter_num)
    else none

/-- The four action behaviors (`store_values_action`,
`store_constant_values_action`, `store_inverse_bool_action`, and the no-op
base `detail::action`). -/
inductive Action where
  | store_values
  | store_constant_values (values : String)
  | store_inverse_bool
  | do_nothing
deriving DecidableEq, Repr

/-- `option_definition` / `detail::raw_option_definition`; the only flag bit
is `Required`, modelled as `required`. -/
structure OptionDefinition where
  long_names : List String
  short_names : List String
  parameters : List ParamDef
  parameter_delimiter : Char
  if_found : Action
  if_not_found : Action
  config_key : String
  description : String
  default_values_description : String
  required : Bool
deriving DecidableEq, Repr

/-- `store_values_action::perform_action`: set the raw text at the key,
remove stale children, then (when the split list length equals the slot
count) add one named child per slot. -/
def store_values_perform (cfg : Config) (option : OptionDefinition)
    (values : String) (value_list : List String) : Config :=
  let cfg1 := config_set cfg option.config_key values
  let cfg2 := config_remove_children cfg1 option.config_key
  if value_list.length = option.parameters.length then
    (option.parameters.zip value_list).foldl
      (fun c pv => config_add_child c option.config_key pv.1.name pv.2) cfg2
  else cfg2

/-- `perform_action` of each action variant.  `store_inverse_bool` throws a
`std::logic_error` on options taking more than one parameter; its inversion
is `!util::parse_bool(values)` rendered as "true"/"false". -/
def perform_action (a : Action) (cfg : Config) (option : OptionDefinition)
    (values : String) (value_list : List String) : Except DefException Config :=
  match a with
  | .do_nothing => .ok cfg
  | .store_values => .ok (store_values_perform cfg option values value_list)
  | .store_constant_values cvs =>
    .ok (store_values_perform cfg option cvs
      (format_split option.parameter_delimiter cvs))
  | .store_inverse_bool =>
    if value_list.length > 1 then .error DefException.inverse_bool_multi
    else
      let inverted := if parse_bool values then "false" else "true"
      .ok (store_values_perform cfg option inverted [inverted])

/-- `switch_option` (both overloads): one boolean slot, `store_values` when
found, `store_constants("false")` when not found. -/
def switch_option (long_names short_names : List String)
    (config_key description : String) (required : Bool) : OptionDefinition :=
  ⟨long_names, short_names, [ParamDef.booleanParam "value"], ',',
    Action.store_values, Action.store_constant_values "false",
    config_key, description, "", required⟩

/-- `complement_switch_option`: one boolean slot, inverse store when found,
no default when not found. -/
def complement_switch_option (long_name config_key description : String)
    (required : Bool) : OptionDefinition :=
  ⟨[long_name], [], [ParamDef.booleanParam "value"], ',',
    Action.store_inverse_bool, Action.do_nothing,
    config_key, description, "", required⟩

/-- `valued_option`: one slot, no default. -/
def valued_option (long_name : String) (parameter : ParamDef)
    (config_key description : String) (required : Bool) : OptionDefinition :=
  ⟨[long_name], [], [parameter], ',',
    Action.store_values, Action.do_nothing,
    config_key, description, "", required⟩

/-- `default_valued_option`: one slot with a constant default. -/
def default_valued_option (long_name : String) (parameter : ParamDef)
    (default_value config_key description : String) (required : Bool) :
    OptionDefinition :=
  ⟨[long_name], [], [parameter], ',',
    Action.store_values, Action.store_constant_values default_value,
    config_key, description, default_value, required⟩

/-- `multivalued_option`: several slots, no default. -/
def multivalued_option (long_name : String) (parameters : List ParamDef)
    (config_key description : String) (required : Bool) : OptionDefinition :=
  ⟨[long_name], [], parameters, ',',
    Action.store_values, Action.do_nothing,
    config_key, description, "", required⟩

/-! ## Validation of option definitions -/

/-- All long and short names across all definitions, with multiplicity, in
declaration order (the multiset counted by `num_times_used`). -/
def all_names (options : List OptionDefinition) : List String :=
  concat_map (fun o => o.long_names ++ o.short_names) options

/-- First-occurrence deduplication of a name list (the distinct keys of the
`std::map` in `validate_unique_names`; the map iterates in sorted key order,
we keep first-occurrence order — the set of emitted diagnostics is the
same). -/
def dedup_first_aux (seen : List String) : List String → List String
  | [] => []
  | a :: l =>
    if seen.contains a then dedup_first_aux seen l
    else a :: dedup_first_aux (a :: seen) l

def dedup_first (l : List String) : List String :=
  dedup_first_aux [] l

/-- `validate_unique_names`: count every long/short name occurrence; any name
counted more than once is an error and one diagnostic is emitted per such
name. -/
def validate_unique_names (options : List OptionDefinition) : Bool × List Diag :=
  let names := all_names options
  let dups := (dedup_first names).filter (fun n => decide (1 < names.count n))
  (!dups.isEmpty, dups.map Diag.nameUsedMultipleTimes)

/-- `validate_names`: number of non-empty names in the list, plus one
diagnostic (and an error) for every name occurrence containing '='. -/
def validate_names (names : List String) : Nat × List Diag :=
  match names with
  | [] => (0, [])
  | name :: rest =>
    ((if name.length > 0 then 1 else 0) + (validate_names rest).1,
      (if name.toList.contains '=' then [Diag.forbiddenEquals name] else []) ++
        (validate_names rest).2)

/-- `validate_has_name`: 1-based walk over the definitions; each definition
must have at least one non-empty long name, and `validate_names` is run over
its long and its short names (the '=' check sets the shared error flag). -/
def validate_has_name_go : Nat → List OptionDefinition → Bool × List Diag
  | _, [] => (false, [])
  | idx, o :: rest =>
    let ds_long := (validate_names o.long_names).2
    let missing : Bool := (validate_names o.long_names).1 = 0
    let ds_short := (validate_names o.short_names).2
    ((!ds_long.isEmpty || missing || !ds_short.isEmpty) ||
        (validate_has_name_go (idx + 1) rest).1,
      ds_long ++ (if missing then [Diag.mustHaveLongName idx] else []) ++
        ds_short ++ (validate_has_name_go (idx + 1) rest).2)

def validate_has_name (options : List OptionDefinition) : Bool × List Diag :=
  validate_has_name_go 1 options

/-- `validate_definition`: run both checks, accumulating diagnostics; a
`true` first component is the raised `std::logic_error` ("Ill-specified
command line options ... Fix and recompile."). -/
def validate_definition (options : List OptionDefinition) : Bool × List Diag :=
  ((validate_unique_names options).1 || (validate_has_name options).1,
    (validate_unique_names options).2 ++ (validate_has_name options).2)

/-! ## Command line parsing -/

/-- `parser_state` (command_line.hpp). -/
structure ParserState where
  exit : Bool
  parse_error : Bool
deriving DecidableEq, Repr

/-- `store_defaults`: invoke every definition's `if_not_found` action with
empty text and an empty value list. -/
def store_defaults (cfg : Config) (options : List OptionDefinition) :
    Except DefException Config :=
  match options with
  | [] => .ok cfg
  | o :: rest =>
    match perform_action o.if_not_found cfg o "" [] with
    | .error e => .error e
    | .ok cfg' => store_defaults cfg' rest

/-- The index of the first `'='` in a character list, with the pieces before
and after it (`arg.find_first_of('=')` plus the two substrings). -/
def split_first (sep : Char) : List Char → Option (List Char × List Char)
  | [] => none
  | c :: rest =>
    if c = sep then some ([], rest)
    else
      match split_first sep rest with
      | none => none
      | some (pre, post) => some (c :: pre, post)

/-- `extract_name_and_values`: split an argument at the first `'='` into a
name and a value text, recording whether a separator was present at all. -/
def extract_name_and_values (arg : String) : String × Bool × String :=
  match split_first '=' arg.toList with
  | some (pre, post) => (String.mk pre, true, String.mk post)
  | none => (arg, false, "")

/-- `matches`: linear scan for string equality. -/
def matches_name (candidate : String) (values : List String) : Bool :=
  values.contains candidate

/-- The inner loop of `parse_command_line`: first definition (in order) whose
long or short names contain the extracted name, with its index. -/
def find_matching_option_go (name : String) :
    Nat → List OptionDefinition → Option (Nat × OptionDefinition)
  | _, [] => none
  | j, o :: rest =>
    if matches_name name o.long_names || matches_name name o.short_names then
      some (j, o)
    else find_matching_option_go name (j + 1) rest

def find_matching_option (options : List OptionDefinition) (name : String) :
    Option (Nat × OptionDefinition) :=
  find_matching_option_go name 0 options

/-- The per-slot validation loop of `validate_option_parameters`, from slot
index `i` (the diagnostic reports slot `i + 1`). -/
def validate_slots (name : String) :
    Nat → List (ParamDef × String) → Bool × List Diag
  | _, [] => (false, [])
  | i, (p, v) :: rest =>
    let d := parameter_validate p name v (i + 1)
    (d.isSome || (validate_slots name (i + 1) rest).1,
      d.toList ++ (validate_slots name (i + 1) rest).2)

/-- `validate_option_parameters`: a slot-count mismatch is an error with one
diagnostic; otherwise every slot validator runs and failures accumulate. -/
def validate_option_parameters (option : OptionDefinition) (name : String)
    (value_list : List String) : Bool × List Diag :=
  if option.parameters.length ≠ value_list.length then
    (true,
      [if option.parameters.length = 1 then Diag.expectsParam name
       else Diag.wrongParamCount name option.parameters.length value_list.length])
  else validate_slots name 0 (option.parameters.zip value_list)

/-- `count_required_options`. -/
def count_required_options (options : List OptionDefinition) : Nat :=
  (options.filter (fun o => o.required)).length

/-- `validate_required_options_found`: every required definition whose index
was never recorded as found emits a missing-required diagnostic (named by
the primary long name) and marks an error. -/
def validate_required_options_found_go (options_found : List Nat) :
    Nat → List OptionDefinition → Bool × List Diag
  | _, [] => (false, [])
  | j, o :: rest =>
    if o.required && !(options_found.contains j) then
      (true, Diag.missingRequired (o.long_names.headD "") ::
        (validate_required_options_found_go options_found (j + 1) rest).2)
    else validate_required_options_found_go options_found (j + 1) rest

def validate_required_options_found (options : List OptionDefinition)
    (options_found : List Nat) : Bool × List Diag :=
  validate_required_options_found_go options_found 0 options

/-- `is_switch`: exactly one parameter slot, of boolean type. -/
def is_switch (option : OptionDefinition) : Bool :=
  option.parameters.length = 1 &&
    (option.parameters.headD (ParamDef.stringParam "value")).is_boolean

/-- `std::set<size_t>::insert`. -/
def insert_found (j : Nat) (found : List Nat) : List Nat :=
  if found.contains j then found else j :: found

/-- The value list built for a matched option from the value text
(command_line.cpp:615-630): for a single-slot option the text is the sole
entry; for a multi-slot option it is split on the option's delimiter; an
empty text contributes nothing. -/
def mk_value_list (option : OptionDefinition) (values : String) : List String :=
  if values ≠ "" then
    if option.parameters.length = 1 then [values]
    else if option.parameters.length > 1 then
      format_split option.parameter_delimiter values
    else []
  else []

/-- The accumulated state of the argument loop of `parse_command_line`:
the destination tree, the set of found option indices, the error flag, and
the emitted events. -/
structure LoopState where
  cfg : Config
  options_found : List Nat
  parse_error : Bool
  events : List Event
deriving DecidableEq, Repr

/-- The body of the argument loop of `parse_command_line`
(command_line.cpp:599-662) for one argument. -/
def parse_one_argument (options : List OptionDefinition) (st : LoopState)
    (arg : String) : Except DefException LoopState :=
  let name := (extract_name_and_values arg).1
  let separator_present := (extract_name_and_values arg).2.1
  let values := (extract_name_and_values arg).2.2
  match find_matching_option options name with
  | none =>
    .ok { st with
            parse_error := true
            events := st.events ++ [Event.diag (Diag.invalidOption name)] }
  | some (j, option) =>
    let value_list := mk_value_list option values
    if values == "" && !separator_present && is_switch option then
      match perform_action option.if_found st.cfg option "true" (value_list ++ ["true"]) with
      | .error e => .error e
      | .ok cfg' =>
        .ok { st with
                cfg := cfg'
                options_found := insert_found j st.options_found }
    else
      let err := (validate_option_parameters option name value_list).1
      let ds := (validate_option_parameters option name value_list).2
      if err then
        .ok { st with
                parse_error := true
                options_found := insert_found j st.options_found
                events := st.events ++ ds.map Event.diag }
      else
        match perform_action option.if_found st.cfg option values value_list with
        | .error e => .error e
        | .ok cfg' =>
          .ok { st with
                  cfg := cfg'
                  options_found := insert_found j st.options_found
                  events := st.events ++ ds.map Event.diag }

/-- The argument loop itself (`for (int i = 1; i < argc; i++)`). -/
def parse_arguments (options : List OptionDefinition) :
    List String → LoopState → Except DefException LoopState
  | [], st => .ok st
  | arg :: rest, st =>
    match parse_one_argument options st arg with
    | .error e => .error e
    | .ok st' => parse_arguments options rest st'

/-- The tail of `parse_command_line` (command_line.cpp:664-679): read the
help flag through the typed-default accessor; when set, force exit and
render help (skipping the required-option check); otherwise run the
required-option check.  The returned state is
`{should_exit || parse_error, parse_error}`. -/
def finish_parse (cfg : Config) (options : List OptionDefinition)
    (parse_error : Bool) (options_found : List Nat) : ParserState × List Event :=
  let print_help := value_as_default_bool cfg "ShowHelp" false
  if print_help then (⟨true, parse_error⟩, [Event.helpShown])
  else
    let err := (validate_required_options_found options options_found).1
    let ds := (validate_required_options_found options options_found).2
    (⟨parse_error || err, parse_error || err⟩, ds.map Event.diag)

/-- `parse_command_line(config, options, argc, argv)`: `argv` is the whole
argument vector including the program name (`argc = argv.length`).  Returns
the populated tree, the parser state, and the emitted events; a raised
`std::logic_error` is the `Except.error` case. -/
def parse_command_line (cfg0 : Config) (options : List OptionDefinition)
    (argv : List String) : Except DefException (Config × ParserState × List Event) :=
  let verr := (validate_definition options).1
  let vdiags := (validate_definition options).2
  if verr then .error DefException.ill_specified
  else if argv.length = 1 && decide (0 < count_required_options options) then
    .ok (cfg0, ⟨true, true⟩, vdiags.map Event.diag ++ [Event.helpShown])
  else
    match store_defaults cfg0 options with
    | .error e => .error e
    | .ok cfg =>
      match parse_arguments options (argv.drop 1) ⟨cfg, [], false, []⟩ with
      | .error e => .error e
      | .ok st =>
        let state := (finish_parse st.cfg options st.parse_error st.options_found).1
        let fevents := (finish_parse st.cfg options st.parse_error st.options_found).2
        .ok (st.cfg, state, vdiags.map Event.diag ++ st.events ++ fevents)

/-! ## Properties of the definition validator -/

theorem validate_unique_names_noerr (options : List OptionDefinition)
    (h : (validate_unique_names options).1 = false) :
    (validate_unique_names options).2 = [] := by
  unfold validate_unique_names at h ⊢
  simp only [Bool.not_eq_false'] at h
  simp only [List.isEmpty_iff] at h
  simp [h]

theorem validate_has_name_go_noerr :
    ∀ (idx : Nat) (options : List OptionDefinition),
      (validate_has_name_go idx options).1 = false →
      (validate_has_name_go idx options).2 = [] := by
  intro idx options
  induction options generalizing idx with
  | nil => intro _; rfl
  | cons o rest ih =>
    intro h
    rw [validate_has_name_go] at h ⊢
    simp only [Bool.or_eq_false_iff, Bool.not_eq_false', decide_eq_false_iff_not,
      List.isEmpty_iff] at h
    obtain ⟨⟨⟨h1, h2⟩, h3⟩, h4⟩ := h
    simp only [h1, h3, ih (idx + 1) h4, List.append_nil, List.nil_append,
      List.append_assoc]
    rw [if_neg (by simpa using h2)]

theorem validate_has_name_noerr (options : List OptionDefinition)
    (h : (validate_has_name options).1 = false) :
    (validate_has_name options).2 = [] :=
  validate_has_name_go_noerr 1 options h

theorem validate_definition_noerr (options : List OptionDefinition)
    (h : (validate_definition options).1 = false) :
    (validate_definition options).2 = [] := by
  unfold validate_definition at h ⊢
  simp only [Bool.or_eq_false_iff] at h
  rw [validate_unique_names_noerr options h.1,
    validate_has_name_noerr options h.2]
  rfl

/-! ## Claim C1 -/

/-- Claim C1: when the definition set contains at least one required option
and the argument vector holds only the program name (`argc == 1`), parsing
renders help and returns `{should_exit = true, had_error = true}` right
away: the destination tree is returned exactly as passed in (defaults were
not yet seeded) and the only event is the help rendering — in particular no
missing-required-option diagnostic is emitted. -/
theorem claim_C1 (cfg0 : Config) (options : List OptionDefinition)
    (prog : String)
    (hval : (validate_definition options).1 = false)
    (hreq : 0 < count_required_options options) :
    parse_command_line cfg0 options [prog] =
      .ok (cfg0, ⟨true, true⟩, [Event.helpShown]) := by
  unfold parse_command_line
  simp [hval, validate_definition_noerr options hval, hreq]

def w1_options : List OptionDefinition :=
  [switch_option ["--help"] ["-h", "-?"] "ShowHelp" "Print this help text." false,
   valued_option "--model" (ParamDef.stringParam "file") "Model"
     "Path to the model file." true]

theorem claim_C1_witness :
    parse_command_line [] w1_options ["llava-server"] =
      .ok ([], ⟨true, true⟩, [Event.helpShown]) :=
  claim_C1 [] w1_options "llava-server" (by decide) (by decide)

/-! ## Claims C7 and C8: the integer validator -/

/-- Claim C7 (code bug): an integer slot declared with `lower > upper` is
supposed to swap its bounds at construction, but the constructor body swaps
the by-value parameters after the const members were initialized, so the
stored range stays `[5, 1]` (empty) and the in-intended-range value "3" is
rejected as out of range; the spec-intended construction (bounds swapped)
accepts it. -/
theorem claim_C7 :
    parameter_validate (integer_with_bounds "value" 5 1) "opt" "3" 1 =
      some (Diag.argOutOfRange "opt" 1 5 1) ∧
    parameter_validate (spec_integer_with_bounds "value" 5 1) "opt" "3" 1 =
      none ∧
    min (5 : Int) 1 ≤ 3 ∧ (3 : Int) ≤ max 5 1 := by
  refine ⟨by decide, by decide, by decide, by decide⟩

/-- Claim C8 counterexample: with bounds `[0, 100]` configured and the
unparsable text "abc", the validator reports "must be an integer", not the
out-of-range diagnostic — the claimed unconditional preference is false
(the failed extraction stores 0, which is inside these bounds). -/
theorem claim_C8_counterexample :
    (parse_int64 "abc".toList).1 = false ∧
    parameter_validate (integer_with_bounds "value" 0 100) "opt" "abc" 1 =
      some (Diag.argNotInteger "opt" 1) := by
  refine ⟨by decide, by decide⟩

/-- Claim C8 (amended): for a bounds-configured integer slot and an input
that fails 64-bit extraction, the validator always reports failure; the
out-of-range diagnostic is preferred exactly when the value stored by the
failed extraction (0, or the saturated extreme on overflow) lies outside
the bounds, and otherwise the "not an integer" diagnostic is emitted. -/
theorem claim_C8 (pname oname value : String) (lower upper : Int) (n : Nat)
    (hfail : (parse_int64 value.toList).1 = false) :
    (¬(lower ≤ (parse_int64 value.toList).2 ∧
        (parse_int64 value.toList).2 ≤ upper) →
      parameter_validate (ParamDef.integerParam pname lower upper true)
        oname value n = some (Diag.argOutOfRange oname n lower upper)) ∧
    ((lower ≤ (parse_int64 value.toList).2 ∧
        (parse_int64 value.toList).2 ≤ upper) →
      parameter_validate (ParamDef.integerParam pname lower upper true)
        oname value n = some (Diag.argNotInteger oname n)) := by
  constructor
  · intro hoob
    have hd : decide (lower ≤ (parse_int64 value.toList).2 ∧
        (parse_int64 value.toList).2 ≤ upper) = false := decide_eq_false hoob
    unfold parameter_validate
    simp only [if_true, hd, Bool.not_false, if_pos]
  · intro hin
    have hd : decide (lower ≤ (parse_int64 value.toList).2 ∧
        (parse_int64 value.toList).2 ≤ upper) = true := decide_eq_true hin
    unfold parameter_validate
    simp only [if_true, hd, Bool.not_true, Bool.not_eq_true', if_neg, hfail]
    simp [hfail]

/-! ## Claim C3: switch shorthand -/

theorem split_first_none (sep : Char) (l : List Char) (h : sep ∉ l) :
    split_first sep l = none := by
  induction l with
  | nil => rfl
  | cons c rest ih =>
    rw [split_first]
    have hc : ¬c = sep := fun hc => h (by simp [hc])
    rw [if_neg hc, ih (fun hm => h (List.mem_cons_of_mem c hm))]

theorem split_first_append (sep : Char) (l r : List Char) (h : sep ∉ l) :
    split_first sep (l ++ sep :: r) = some (l, r) := by
  induction l with
  | nil => simp [split_first]
  | cons c rest ih =>
    have hc : ¬c = sep := fun hc => h (by simp [hc])
    rw [List.cons_append, split_first, if_neg hc,
      ih (fun hm => h (List.mem_cons_of_mem c hm))]

theorem extract_no_separator (arg : String) (h : '=' ∉ arg.toList) :
    extract_name_and_values arg = (arg, false, "") := by
  unfold extract_name_and_values
  rw [split_first_none '=' arg.toList h]

theorem extract_trailing_separator (name : String) (h : '=' ∉ name.toList) :
    extract_name_and_values (name ++ "=") = (name, true, "") := by
  unfold extract_name_and_values
  have htl : (name ++ "=").toList = name.toList ++ '=' :: [] := by
    simp [String.toList]
  rw [htl, split_first_append '=' name.toList [] h]
  rfl

theorem is_switch_param_len (option : OptionDefinition)
    (h : is_switch option = true) : option.parameters.length = 1 := by
  unfold is_switch at h
  simp only [Bool.and_eq_true, decide_eq_true_eq] at h
  exact h.1

theorem perform_action_ok_of_short (a : Action) (cfg : Config)
    (option : OptionDefinition) (values : String) (l : List String)
    (h : l.length ≤ 1) : ∃ cfg', perform_action a cfg option values l = .ok cfg' := by
  cases a with
  | do_nothing => exact ⟨cfg, rfl⟩
  | store_values => exact ⟨_, rfl⟩
  | store_constant_values cvs => exact ⟨_, rfl⟩
  | store_inverse_bool =>
    unfold perform_action
    rw [if_neg (by omega)]
    exact ⟨_, rfl⟩

/-- Claim C3: (a) an argument with no `=` at all whose name matches a switch
synthesizes the value "true" and invokes the found action directly, with no
validation diagnostic and no error; (b) an argument with a trailing `=` and
empty value text is not treated as the shorthand: it goes through
`validate_option_parameters`, which rejects the empty value list (the
switch expects a parameter), suppressing the action. -/
theorem claim_C3 :
    (∀ (options : List OptionDefinition) (st : LoopState) (arg : String)
        (j : Nat) (option : OptionDefinition),
      '=' ∉ arg.toList →
      find_matching_option options arg = some (j, option) →
      is_switch option = true →
      ∃ cfg', perform_action option.if_found st.cfg option "true" ["true"] =
          .ok cfg' ∧
        parse_one_argument options st arg =
          .ok ⟨cfg', insert_found j st.options_found, st.parse_error,
            st.events⟩) ∧
    (∀ (options : List OptionDefinition) (st : LoopState) (name : String)
        (j : Nat) (option : OptionDefinition),
      '=' ∉ name.toList →
      find_matching_option options name = some (j, option) →
      is_switch option = true →
      parse_one_argument options st (name ++ "=") =
        .ok ⟨st.cfg, insert_found j st.options_found, true,
          st.events ++ [Event.diag (Diag.expectsParam name)]⟩) := by
  constructor
  · intro options st arg j option hne hfind hsw
    unfold parse_one_argument
    rw [extract_no_separator arg hne]
    simp only [hfind]
    rw [if_pos (by simp [hsw])]
    have hvl : mk_value_list option "" = [] := by simp [mk_value_list]
    rw [hvl]
    obtain ⟨cfg', hpa⟩ := perform_action_ok_of_short option.if_found st.cfg
      option "true" ["true"] (by simp)
    simp only [List.nil_append, hpa]
    exact ⟨cfg', rfl, rfl⟩
  · intro options st name j option hne hfind hsw
    unfold parse_one_argument
    rw [extract_trailing_separator name hne]
    simp only [hfind]
    rw [if_neg (by simp)]
    have hvl : mk_value_list option "" = [] := by simp [mk_value_list]
    rw [hvl]
    have hval : validate_option_parameters option name [] =
        (true, [Diag.expectsParam name]) := by
      unfold validate_option_parameters
      rw [if_pos (by simp [is_switch_param_len option hsw]),
        if_pos (is_switch_param_len option hsw)]
    rw [hval]
    rfl

def w3_options : List OptionDefinition :=
  [switch_option ["--verbose"] [] "Verbose" "Verbose output." false]

def w3_state : LoopState := ⟨[], [], false, []⟩

theorem claim_C3_witness :
    (∃ cfg',
      perform_action
          (switch_option ["--verbose"] [] "Verbose" "Verbose output." false).if_found
          w3_state.cfg
          (switch_option ["--verbose"] [] "Verbose" "Verbose output." false)
          "true" ["true"] = .ok cfg' ∧
        parse_one_argument w3_options w3_state "--verbose" =
          .ok ⟨cfg', insert_found 0 w3_state.options_found,
            w3_state.parse_error, w3_state.events⟩) ∧
    parse_one_argument w3_options w3_state ("--verbose" ++ "=") =
      .ok ⟨w3_state.cfg, insert_found 0 w3_state.options_found, true,
        w3_state.events ++ [Event.diag (Diag.expectsParam "--verbose")]⟩ :=
  ⟨claim_C3.1 w3_options w3_state "--verbose" 0 _ (by decide) rfl rfl,
    claim_C3.2 w3_options w3_state "--verbose" 0 _ (by decide) rfl rfl⟩

/-! ## Claim C2: failed validation suppresses the found action -/

/-- A matched argument whose validation fails: the error flag is set, the
diagnostics are appended, the index is recorded as found, and the tree is
left untouched (the found action is not invoked). -/
theorem parse_one_argument_fail (options : List OptionDefinition)
    (st : LoopState) (arg : String) (j : Nat) (option : OptionDefinition)
    (hfind : find_matching_option options (extract_name_and_values arg).1 =
      some (j, option))
    (hpath : ((extract_name_and_values arg).2.2 == "" &&
      !(extract_name_and_values arg).2.1 && is_switch option) = false)
    (hfail : (validate_option_parameters option (extract_name_and_values arg).1
      (mk_value_list option (extract_name_and_values arg).2.2)).1 = true) :
    parse_one_argument options st arg =
      .ok { st with
              parse_error := true
              options_found := insert_found j st.options_found
              events := st.events ++
                ((validate_option_parameters option
                  (extract_name_and_values arg).1
                  (mk_value_list option
                    (extract_name_and_values arg).2.2)).2).map Event.diag } := by
  unfold parse_one_argument
  simp only [hfind]
  rw [if_neg (by simp [hpath])]
  simp only [hfail, if_true]

theorem finish_parse_error_state (cfg : Config)
    (options : List OptionDefinition) (found : List Nat) :
    (finish_parse cfg options true found).1 = ⟨true, true⟩ := by
  unfold finish_parse
  by_cases h : value_as_default_bool cfg "ShowHelp" false = true
  · simp [h]
  · simp [h]

/-- Claim C2: for a matched option whose parameter validation fails, the
parser marks a parse error and never invokes the option's found action —
after a run consisting of that single argument, the tree is exactly what the
up-front default-seeding pass (`store_defaults`) produced, and the run
reports `{should_exit = true, had_error = true}`. -/
theorem claim_C2 (cfg0 cfgd : Config) (options : List OptionDefinition)
    (prog arg : String) (j : Nat) (option : OptionDefinition)
    (hval : (validate_definition options).1 = false)
    (hfind : find_matching_option options (extract_name_and_values arg).1 =
      some (j, option))
    (hpath : ((extract_name_and_values arg).2.2 == "" &&
      !(extract_name_and_values arg).2.1 && is_switch option) = false)
    (hlen : option.parameters.length =
      (mk_value_list option (extract_name_and_values arg).2.2).length)
    (hfail : (validate_option_parameters option (extract_name_and_values arg).1
      (mk_value_list option (extract_name_and_values arg).2.2)).1 = true)
    (hdef : store_defaults cfg0 options = .ok cfgd) :
    ∃ evs, parse_command_line cfg0 options [prog, arg] =
      .ok (cfgd, ⟨true, true⟩, evs) := by
  unfold parse_command_line
  simp only [hval, validate_definition_noerr options hval, Bool.false_eq_true,
    if_false, List.length_cons, List.length_nil, List.map_nil,
    List.nil_append]
  rw [if_neg (by simp)]
  rw [hdef]
  simp only [List.drop_succ_cons, List.drop_zero]
  unfold parse_arguments
  rw [parse_one_argument_fail options ⟨cfgd, [], false, []⟩ arg j option
    hfind hpath hfail]
  unfold parse_arguments
  simp only [finish_parse_error_state]
  exact ⟨_, rfl⟩

def w2_cfgd : Config := [("Verbose", ⟨"false", [("value", "false")]⟩)]

theorem claim_C2_witness :
    ∃ evs, parse_command_line [] w3_options ["llava-server", "--verbose=notabool"] =
      .ok (w2_cfgd, ⟨true, true⟩, evs) :=
  claim_C2 [] w2_cfgd w3_options "llava-server" "--verbose=notabool" 0 _
    (by decide) rfl (by decide) (by decide) (by decide) rfl

/-! ## Claim C4: a set help flag forces exit and skips the required check -/

theorem parameter_validate_not_missing (p : ParamDef) (a b : String)
    (c : Nat) (n : String) :
    parameter_validate p a b c ≠ some (Diag.missingRequired n) := by
  cases p with
  | stringParam nm => simp [parameter_validate]
  | booleanParam nm =>
    simp only [parameter_validate]
    repeat' split
    all_goals simp
  | integerParam nm lo hi req =>
    simp only [parameter_validate]
    repeat' split
    all_goals simp

theorem validate_slots_no_missing (name : String) :
    ∀ (i : Nat) (l : List (ParamDef × String)) (n : String),
      Diag.missingRequired n ∉ (validate_slots name i l).2 := by
  intro i l
  induction l generalizing i with
  | nil => intro n; simp [validate_slots]
  | cons pv rest ih =>
    intro n hmem
    obtain ⟨p, v⟩ := pv
    rw [validate_slots] at hmem
    simp only [List.mem_append] at hmem
    rcases hmem with hmem | hmem
    · rcases hd : parameter_validate p name v (i + 1) with _ | d
      · rw [hd] at hmem; simp [Option.toList] at hmem
      · rw [hd] at hmem
        simp only [Option.toList, List.mem_singleton] at hmem
        subst hmem
        exact parameter_validate_not_missing p name v (i + 1) n hd
    · exact ih (i + 1) n hmem

theorem validate_option_parameters_no_missing (option : OptionDefinition)
    (name : String) (vl : List String) (n : String) :
    Diag.missingRequired n ∉ (validate_option_parameters option name vl).2 := by
  unfold validate_option_parameters
  split
  · split <;> simp
  · exact validate_slots_no_missing name 0 _ n

theorem parse_one_argument_no_missing (options : List OptionDefinition)
    (st st' : LoopState) (arg : String)
    (h : parse_one_argument options st arg = .ok st') (n : String)
    (hmem : Event.diag (Diag.missingRequired n) ∈ st'.events) :
    Event.diag (Diag.missingRequired n) ∈ st.events := by
  unfold parse_one_argument at h
  rcases hfind : find_matching_option options
      (extract_name_and_values arg).1 with _ | jo
  · simp only [hfind] at h
    simp only [Except.ok.injEq] at h
    subst h
    simp only [List.mem_append, List.mem_singleton] at hmem
    rcases hmem with hmem | hmem
    · exact hmem
    · exact absurd hmem (by simp)
  · obtain ⟨j, option⟩ := jo
    simp only [hfind] at h
    split at h
    · rcases hpa : perform_action option.if_found st.cfg option "true"
          (mk_value_list option (extract_name_and_values arg).2.2 ++ ["true"]) with e | cfg'
      · rw [hpa] at h; exact absurd h (by simp)
      · rw [hpa] at h
        simp only [Except.ok.injEq] at h
        subst h
        exact hmem
    · split at h
      · simp only [Except.ok.injEq] at h
        subst h
        simp only [List.mem_append, List.mem_map] at hmem
        rcases hmem with hmem | ⟨d, hd, hde⟩
        · exact hmem
        · cases hde
          exact absurd hd (validate_option_parameters_no_missing option
            (extract_name_and_values arg).1
            (mk_value_list option (extract_name_and_values arg).2.2) n)
      · rcases hpa : perform_action option.if_found st.cfg option
            (extract_name_and_values arg).2.2
            (mk_value_list option (extract_name_and_values arg).2.2) with e | cfg'
        · rw [hpa] at h; exact absurd h (by simp)
        · rw [hpa] at h
          simp only [Except.ok.injEq] at h
          subst h
          simp only [List.mem_append, List.mem_map] at hmem
          rcases hmem with hmem | ⟨d, hd, hde⟩
          · exact hmem
          · cases hde
            exact absurd hd (validate_option_parameters_no_missing option
              (extract_name_and_values arg).1
              (mk_value_list option (extract_name_and_values arg).2.2) n)

theorem parse_arguments_no_missing (options : List OptionDefinition) :
    ∀ (args : List String) (st st' : LoopState),
      parse_arguments options args st = .ok st' → ∀ n : String,
      Event.diag (Diag.missingRequired n) ∈ st'.events →
      Event.diag (Diag.missingRequired n) ∈ st.events := by
  intro args
  induction args with
  | nil =>
    intro st st' h n hmem
    rw [parse_arguments] at h
    simp only [Except.ok.injEq] at h
    subst h
    exact hmem
  | cons arg rest ih =>
    intro st st' h n hmem
    rw [parse_arguments] at h
    rcases h1 : parse_one_argument options st arg with e | st1
    · rw [h1] at h; exact absurd h (by simp)
    · rw [h1] at h
      exact parse_one_argument_no_missing options st st1 arg h1 n
        (ih st1 st' h n hmem)

theorem finish_parse_help (cfg : Config) (options : List OptionDefinition)
    (pe : Bool) (found : List Nat)
    (h : value_as_default_bool cfg "ShowHelp" false = true) :
    finish_parse cfg options pe found = (⟨true, pe⟩, [Event.helpShown]) := by
  unfold finish_parse
  simp [h]

/-- Claim C4: whenever a parse run returns successfully and the help flag
(key "ShowHelp", read through the typed-default accessor) is set in the
returned tree, the run reports `should_exit = true`, help was rendered, and
no missing-required-option diagnostic was emitted (the required-option
check is skipped). -/
theorem claim_C4 (cfg0 : Config) (options : List OptionDefinition)
    (argv : List String) (cfg' : Config) (st : ParserState) (evs : List Event)
    (hrun : parse_command_line cfg0 options argv = .ok (cfg', st, evs))
    (hhelp : value_as_default_bool cfg' "ShowHelp" false = true) :
    st.exit = true ∧ Event.helpShown ∈ evs ∧
      ∀ n, Event.diag (Diag.missingRequired n) ∉ evs := by
  unfold parse_command_line at hrun
  by_cases hval : (validate_definition options).1 = true
  · rw [if_pos hval] at hrun
    exact absurd hrun (by simp)
  · rw [if_neg hval] at hrun
    rw [Bool.not_eq_true] at hval
    rw [validate_definition_noerr options hval] at hrun
    simp only [List.map_nil, List.nil_append] at hrun
    split at hrun
    · simp only [Except.ok.injEq, Prod.mk.injEq] at hrun
      obtain ⟨hc, hs, he⟩ := hrun
      subst hs he
      refine ⟨rfl, by simp, ?_⟩
      intro n hn
      simp only [List.mem_singleton] at hn
      exact absurd hn (by simp)
    · rcases hdef : store_defaults cfg0 options with e | cfgd
      · rw [hdef] at hrun; exact absurd hrun (by simp)
      · simp only [hdef] at hrun
        rcases hargs : parse_arguments options (argv.drop 1)
            ⟨cfgd, [], false, []⟩ with e | stL
        · simp only [hargs] at hrun
          exact absurd hrun (by simp)
        · simp only [hargs] at hrun
          simp only [Except.ok.injEq, Prod.mk.injEq] at hrun
          obtain ⟨hc, hs, he⟩ := hrun
          subst hc
          rw [finish_parse_help stL.cfg options stL.parse_error
            stL.options_found hhelp] at hs he
          subst hs he
          refine ⟨rfl, by simp, ?_⟩
          intro n hn
          simp only [List.mem_append, List.mem_singleton] at hn
          rcases hn with hn | hn
          · have := parse_arguments_no_missing options (argv.drop 1)
              ⟨cfgd, [], false, []⟩ stL hargs n hn
            simp at this
          · exact absurd hn (by simp)

theorem claim_C4_witness :
    ∃ cfg' evs,
      parse_command_line [] w1_options ["llava-server", "--help"] =
        .ok (cfg', ⟨true, false⟩, evs) ∧
      (⟨true, false⟩ : ParserState).exit = true ∧ Event.helpShown ∈ evs ∧
      ∀ n, Event.diag (Diag.missingRequired n) ∉ evs := by
  refine ⟨_, _, rfl, ?_⟩
  have := claim_C4 [] w1_options ["llava-server", "--help"] _ _ _ rfl (by decide)
  exact this

/-! ## Claim C5: a matched definition is recorded as found even on failure -/

theorem find_matching_option_go_spec (name : String) :
    ∀ (j0 : Nat) (opts : List OptionDefinition) (j : Nat) (o : OptionDefinition),
      find_matching_option_go name j0 opts = some (j, o) →
      ∃ k, j = j0 + k ∧ opts.get? k = some o := by
  intro j0 opts
  induction opts generalizing j0 with
  | nil => intro j o h; simp [find_matching_option_go] at h
  | cons a rest ih =>
    intro j o h
    rw [find_matching_option_go] at h
    by_cases hm : (matches_name name a.long_names ||
        matches_name name a.short_names) = true
    · rw [if_pos hm] at h
      simp only [Option.some.injEq, Prod.mk.injEq] at h
      obtain ⟨hj, ho⟩ := h
      exact ⟨0, by omega, by rw [← ho]; rfl⟩
    · rw [if_neg hm] at h
      obtain ⟨k, hk, hg⟩ := ih (j0 + 1) j o h
      exact ⟨k + 1, by omega, by simpa using hg⟩

theorem find_matching_option_get (options : List OptionDefinition)
    (name : String) (j : Nat) (o : OptionDefinition)
    (h : find_matching_option options name = some (j, o)) :
    options.get? j = some o := by
  obtain ⟨k, hk, hg⟩ := find_matching_option_go_spec name 0 options j o h
  have : j = k := by omega
  subst this
  exact hg

theorem mem_dedup_first_aux :
    ∀ (l seen : List String) (a : String),
      a ∈ dedup_first_aux seen l ↔ a ∈ l ∧ ¬a ∈ seen := by
  intro l
  induction l with
  | nil => intro seen a; simp [dedup_first_aux]
  | cons b rest ih =>
    intro seen a
    rw [dedup_first_aux]
    by_cases hb : seen.contains b
    · rw [if_pos hb]
      replace hb : b ∈ seen := by simpa using hb
      rw [ih]
      constructor
      · rintro ⟨h1, h2⟩
        exact ⟨List.mem_cons_of_mem b h1, h2⟩
      · rintro ⟨h1, h2⟩
        rcases List.mem_cons.mp h1 with h1 | h1
        · subst h1; exact absurd hb h2
        · exact ⟨h1, h2⟩
    · rw [if_neg hb]
      replace hb : ¬b ∈ seen := by simpa using hb
      by_cases hab : a = b
      · subst hab
        simp [ih, hb]
      · simp only [List.mem_cons, hab, false_or]
        rw [ih]
        simp [List.mem_cons, hab]

theorem mem_dedup_first (l : List String) (a : String) :
    a ∈ dedup_first l ↔ a ∈ l := by
  unfold dedup_first
  rw [mem_dedup_first_aux]
  simp

theorem unique_ok_count_le_one (options : List OptionDefinition)
    (h : (validate_unique_names options).1 = false) :
    ∀ n, (all_names options).count n ≤ 1 := by
  unfold validate_unique_names at h
  simp only [Bool.not_eq_false', List.isEmpty_iff, List.filter_eq_nil_iff,
    decide_eq_true_eq, Nat.not_lt] at h
  intro n
  by_cases hn : n ∈ all_names options
  · exact h n ((mem_dedup_first (all_names options) n).mpr hn)
  · rw [List.count_eq_zero_of_not_mem hn]
    omega

theorem mem_concat_map {f : α → List β} {a : α} {b : β} :
    ∀ {l : List α}, a ∈ l → b ∈ f a → b ∈ concat_map f l := by
  intro l
  induction l with
  | nil => intro h; simp at h
  | cons x rest ih =>
    intro ha hb
    rw [concat_map]
    rcases List.mem_cons.mp ha with ha | ha
    · subst ha; exact List.mem_append_left _ hb
    · exact List.mem_append_right _ (ih ha hb)

theorem count_ge_two_of_two_defs (f : OptionDefinition → List String) :
    ∀ (options : List OptionDefinition) (j k : Nat)
      (oj ok2 : OptionDefinition) (n : String),
      j < k → options.get? j = some oj → options.get? k = some ok2 →
      n ∈ f oj → n ∈ f ok2 → 2 ≤ (concat_map f options).count n := by
  intro options
  induction options with
  | nil => intro j k oj ok2 n _ hj _ _ _; simp at hj
  | cons a rest ih =>
    intro j k oj ok2 n hjk hj hk hmj hmk
    cases j with
    | zero =>
      simp only [List.get?_cons_zero, Option.some.injEq] at hj
      cases k with
      | zero => omega
      | succ k' =>
        simp only [List.get?_cons_succ] at hk
        rw [concat_map, List.count_append]
        have h1 : 0 < (f a).count n :=
          List.count_pos_iff_mem.mpr (hj ▸ hmj)
        have h2 : 0 < (concat_map f rest).count n :=
          List.count_pos_iff_mem.mpr
            (mem_concat_map (List.get?_mem hk) hmk)
        omega
    | succ j' =>
      cases k with
      | zero => omega
      | succ k' =>
        simp only [List.get?_cons_succ] at hj hk
        have := ih j' k' oj ok2 n (by omega) hj hk hmj hmk
        rw [concat_map, List.count_append]
        omega

theorem validate_has_name_go_long_names :
    ∀ (opts : List OptionDefinition) (idx : Nat),
      (validate_has_name_go idx opts).1 = false →
      ∀ o ∈ opts, (validate_names o.long_names).1 ≠ 0 := by
  intro opts
  induction opts with
  | nil => intro idx _ o ho; simp at ho
  | cons a rest ih =>
    intro idx h o ho
    rw [validate_has_name_go] at h
    simp only [Bool.or_eq_false_iff, Bool.not_eq_false',
      decide_eq_false_iff_not, List.isEmpty_iff] at h
    obtain ⟨⟨⟨_, h2⟩, _⟩, h4⟩ := h
    rcases List.mem_cons.mp ho with ho | ho
    · subst ho; exact h2
    · exact ih (idx + 1) h4 o ho

theorem headD_mem_of_ne_nil (l : List String) (h : l ≠ []) :
    l.headD "" ∈ l := by
  cases l with
  | nil => exact absurd rfl h
  | cons a rest => simp

theorem primary_name_mem (o : OptionDefinition)
    (h : (validate_names o.long_names).1 ≠ 0) :
    o.long_names.headD "" ∈ o.long_names ++ o.short_names := by
  refine List.mem_append_left _ (headD_mem_of_ne_nil _ ?_)
  intro he
  rw [he] at h
  exact h rfl

theorem distinct_primary_names (options : List OptionDefinition)
    (hval : (validate_definition options).1 = false) :
    ∀ (j k : Nat) (oj ok2 : OptionDefinition), j ≠ k →
      options.get? j = some oj → options.get? k = some ok2 →
      oj.long_names.headD "" ≠ ok2.long_names.headD "" := by
  unfold validate_definition at hval
  simp only [Bool.or_eq_false_iff] at hval
  obtain ⟨h1, h2⟩ := hval
  intro j k oj ok2 hne hj hk heq
  have hlong := validate_has_name_go_long_names options 1 h2
  have hmj : oj.long_names.headD "" ∈ oj.long_names ++ oj.short_names :=
    primary_name_mem oj (hlong oj (List.get?_mem hj))
  have hmk : ok2.long_names.headD "" ∈ ok2.long_names ++ ok2.short_names := by
    rw [← heq]
    exact heq ▸ primary_name_mem ok2 (hlong ok2 (List.get?_mem hk))
  have hcount := unique_ok_count_le_one options h1 (oj.long_names.headD "")
  rcases Nat.lt_or_ge j k with hlt | hge
  · have := count_ge_two_of_two_defs
      (fun o => o.long_names ++ o.short_names) options j k oj ok2
      (oj.long_names.headD "") hlt hj hk hmj (heq ▸ hmk)
    unfold all_names at hcount
    omega
  · have hklt : k < j := by omega
    have := count_ge_two_of_two_defs
      (fun o => o.long_names ++ o.short_names) options k j ok2 oj
      (oj.long_names.headD "") hklt hk hj (heq ▸ hmk) hmj
    unfold all_names at hcount
    omega

theorem validate_required_go_mem (found : List Nat) :
    ∀ (opts : List OptionDefinition) (j0 : Nat) (d : Diag),
      d ∈ (validate_required_options_found_go found j0 opts).2 →
      ∃ k o, opts.get? k = some o ∧ o.required = true ∧
        found.contains (j0 + k) = false ∧
        d = Diag.missingRequired (o.long_names.headD "") := by
  intro opts
  induction opts with
  | nil => intro j0 d h; simp [validate_required_options_found_go] at h
  | cons a rest ih =>
    intro j0 d h
    rw [validate_required_options_found_go] at h
    by_cases hc : (a.required && !found.contains j0) = true
    · rw [if_pos hc] at h
      simp only [Bool.and_eq_true, Bool.not_eq_true'] at hc
      rcases List.mem_cons.mp h with h | h
      · exact ⟨0, a, rfl, hc.1, by simpa using hc.2, h⟩
      · obtain ⟨k, o, hg, hr, hf, hd⟩ := ih (j0 + 1) d h
        exact ⟨k + 1, o, by simpa using hg,
          hr, by rw [show j0 + (k + 1) = j0 + 1 + k by omega]; exact hf, hd⟩
    · rw [if_neg hc] at h
      obtain ⟨k, o, hg, hr, hf, hd⟩ := ih (j0 + 1) d h
      exact ⟨k + 1, o, by simpa using hg,
        hr, by rw [show j0 + (k + 1) = j0 + 1 + k by omega]; exact hf, hd⟩

def c5_options : List OptionDefinition :=
  [valued_option "--num" (integer_with_bounds "value" 1 100) "Num"
    "A number." true]

/-- Claim C5 counterexample: the single definition `--num` is required; the
run supplies it only with a validation-failing value (`--num=abc`, bounds
`[1, 100]`).  The claim says the required-option check still reports it
missing; in the code the definition is recorded as found on the name match
alone, so the run's events hold the validation diagnostic and no
missing-required diagnostic at all. -/
theorem claim_C5_counterexample :
    (c5_options.headD (switch_option [] [] "" "" false)).required = true ∧
    parse_command_line [] c5_options ["llava-server", "--num=abc"] =
      .ok ([], ⟨true, true⟩,
        [Event.diag (Diag.argOutOfRange "--num" 1 1 100)]) ∧
    (∀ n, Event.diag (Diag.missingRequired n) ∉
      [Event.diag (Diag.argOutOfRange "--num" 1 1 100)]) := by
  refine ⟨by decide, by rfl, ?_⟩
  intro n
  simp

/-- Claim C5 (amended): a matched definition is recorded as "seen" on the
name match alone, even when its parameter validation fails — so a required
option that appears in argv only with a validation-failing value is *not*
reported missing: the run ends with `had_error = true` from the validation
failure, the tree keeps the seeded default, and no missing-required
diagnostic for that option is emitted. -/
theorem claim_C5 (cfg0 cfgd : Config) (options : List OptionDefinition)
    (prog arg : String) (j : Nat) (option : OptionDefinition)
    (hval : (validate_definition options).1 = false)
    (hfind : find_matching_option options (extract_name_and_values arg).1 =
      some (j, option))
    (hreq : option.required = true)
    (hpath : ((extract_name_and_values arg).2.2 == "" &&
      !(extract_name_and_values arg).2.1 && is_switch option) = false)
    (hlen : option.parameters.length =
      (mk_value_list option (extract_name_and_values arg).2.2).length)
    (hfail : (validate_option_parameters option (extract_name_and_values arg).1
      (mk_value_list option (extract_name_and_values arg).2.2)).1 = true)
    (hdef : store_defaults cfg0 options = .ok cfgd) :
    ∃ evs, parse_command_line cfg0 options [prog, arg] =
      .ok (cfgd, ⟨true, true⟩, evs) ∧
      Event.diag (Diag.missingRequired (option.long_names.headD "")) ∉ evs := by
  unfold parse_command_line
  simp only [hval, validate_definition_noerr options hval, Bool.false_eq_true,
    if_false, List.length_cons, List.length_nil, List.map_nil,
    List.nil_append]
  rw [if_neg (by simp)]
  rw [hdef]
  simp only [List.drop_succ_cons, List.drop_zero]
  unfold parse_arguments
  rw [parse_one_argument_fail options ⟨cfgd, [], false, []⟩ arg j option
    hfind hpath hfail]
  unfold parse_arguments
  simp only [finish_parse_error_state]
  refine ⟨_, rfl, ?_⟩
  intro hmem
  simp only [List.nil_append, List.mem_append, List.mem_map] at hmem
  rcases hmem with ⟨d, hd, hde⟩ | hmem
  · cases hde
    exact validate_option_parameters_no_missing option
      (extract_name_and_values arg).1
      (mk_value_list option (extract_name_and_values arg).2.2) _ hd
  · unfold finish_parse at hmem
    by_cases hh : value_as_default_bool cfgd "ShowHelp" false = true
    · simp only [hh, if_true] at hmem
      simp at hmem
    · simp only [hh, Bool.false_eq_true, if_false] at hmem
      simp only [List.mem_map] at hmem
      obtain ⟨d, hd, hde⟩ := hmem
      obtain ⟨k, o, hg, hr, hf, hdk⟩ :=
        validate_required_go_mem (insert_found j []) options 0 d hd
      subst hdk
      simp only [Event.diag.injEq, Diag.missingRequired.injEq] at hde
      by_cases hjk : k = j
      · subst hjk
        simp only [Nat.zero_add, insert_found] at hf
        simp at hf
      · have hgj : options.get? j = some option := find_matching_option_get
          options (extract_name_and_values arg).1 j option hfind
        exact distinct_primary_names options hval k j o option hjk hg hgj hde

theorem claim_C5_witness :
    ∃ evs, parse_command_line [] c5_options ["llava-server", "--num=abc"] =
      .ok ([], ⟨true, true⟩, evs) ∧
      Event.diag (Diag.missingRequired "--num") ∉ evs := by
  have := claim_C5 [] [] c5_options "llava-server" "--num=abc" 0 _
    (by decide) rfl (by decide) (by decide) (by decide) (by decide) rfl
  exact this

/-! ## Claim C6: the definition validator -/

/-- The claim's well-formedness condition, stated as written: every
long/short name across all definitions is used by exactly one definition,
every definition has at least one non-empty long name, and no name contains
'='. -/
def spec_no_violations (options : List OptionDefinition) : Prop :=
  (∀ n ∈ all_names options,
    (options.filter
      (fun o => decide (n ∈ o.long_names ∨ n ∈ o.short_names))).length = 1) ∧
  (∀ o ∈ options, ∃ ln ∈ o.long_names, ln ≠ "") ∧
  (∀ n ∈ all_names options, n.toList.contains '=' = false)

def c6_options : List OptionDefinition :=
  [switch_option ["--a", "--a"] [] "A" "A switch." false]

/-- Claim C6 counterexample: a single definition that lists the same long
name twice satisfies the claim's condition (the name is used by exactly one
definition, a non-empty long name exists, no '=' appears), yet the
validator counts name occurrences and raises the fatal error — the claimed
"if and only if" fails. -/
theorem claim_C6_counterexample :
    spec_no_violations c6_options ∧
      (validate_definition c6_options).1 = true := by
  constructor
  · refine ⟨?_, ?_, ?_⟩ <;> decide
  · decide

theorem validate_names_count_forbidden (l : List String) (n : String) :
    (validate_names l).2.count (Diag.forbiddenEquals n) =
      if n.toList.contains '=' = true then l.count n else 0 := by
  induction l with
  | nil =>
    rw [validate_names]
    simp only [List.count_nil]
    split <;> rfl
  | cons name rest ih =>
    rw [validate_names, List.count_append, ih, List.count_cons]
    by_cases hname : name = n
    · subst hname
      by_cases hc : name.toList.contains '=' = true
      · rw [if_pos hc, if_pos hc, if_pos hc, List.count_singleton']
        simp
        omega
      · rw [if_neg hc, if_neg hc, if_neg hc]
        simp
    · have hb : (name == n) = false := by
        simp [hname]
      by_cases hc : name.toList.contains '=' = true
      · rw [if_pos hc, List.count_singleton']
        rw [if_neg (by simp [hname] : ¬Diag.forbiddenEquals name =
          Diag.forbiddenEquals n)]
        by_cases hcn : n.toList.contains '=' = true
        · rw [if_pos hcn, if_pos hcn]
          simp [hb]
        · rw [if_neg hcn, if_neg hcn]
      · rw [if_neg hc]
        simp only [List.count_nil, Nat.zero_add]
        by_cases hcn : n.toList.contains '=' = true
        · rw [if_pos hcn, if_pos hcn]
          simp [hb]
        · rw [if_neg hcn, if_neg hcn]

theorem validate_names_count_dup (l : List String) (n : String) :
    (validate_names l).2.count (Diag.nameUsedMultipleTimes n) = 0 := by
  induction l with
  | nil => rfl
  | cons name rest ih =>
    rw [validate_names]
    simp only [List.count_append, ih]
    split <;> simp

theorem validate_names_count_must (l : List String) (i : Nat) :
    (validate_names l).2.count (Diag.mustHaveLongName i) = 0 := by
  induction l with
  | nil => rfl
  | cons name rest ih =>
    rw [validate_names]
    simp only [List.count_append, ih]
    split <;> simp

theorem has_name_go_count_forbidden :
    ∀ (opts : List OptionDefinition) (idx : Nat) (n : String),
      (validate_has_name_go idx opts).2.count (Diag.forbiddenEquals n) =
        if n.toList.contains '=' = true then (all_names opts).count n else 0 := by
  intro opts
  induction opts with
  | nil =>
    intro idx n
    rw [validate_has_name_go]
    simp only [List.count_nil]
    split <;> rfl
  | cons o rest ih =>
    intro idx n
    rw [validate_has_name_go]
    simp only [List.count_append, validate_names_count_forbidden, ih]
    have hmid : ∀ b : Bool,
        (if b = true then [Diag.mustHaveLongName idx] else []).count
          (Diag.forbiddenEquals n) = 0 := by
      intro b; cases b <;> simp
    rw [hmid]
    have hall : all_names (o :: rest) =
        (o.long_names ++ o.short_names) ++ all_names rest := rfl
    rw [hall, List.count_append, List.count_append]
    by_cases hcn : n.toList.contains '=' = true
    · rw [if_pos hcn, if_pos hcn, if_pos hcn, if_pos hcn]
      omega
    · rw [if_neg hcn, if_neg hcn, if_neg hcn, if_neg hcn]

theorem has_name_go_count_dup :
    ∀ (opts : List OptionDefinition) (idx : Nat) (n : String),
      (validate_has_name_go idx opts).2.count
        (Diag.nameUsedMultipleTimes n) = 0 := by
  intro opts
  induction opts with
  | nil => intro idx n; rfl
  | cons o rest ih =>
    intro idx n
    rw [validate_has_name_go]
    simp only [List.count_append, validate_names_count_dup, ih]
    have hmid : ∀ b : Bool,
        (if b = true then [Diag.mustHaveLongName idx] else []).count
          (Diag.nameUsedMultipleTimes n) = 0 := by
      intro b; cases b <;> simp
    rw [hmid]

/-- The claim-side right-hand value for the count of "must have a long name"
diagnostics: whether the `i`-th definition (in the validator's 1-based
numbering) exists and has no non-empty long name. -/
def missing_long_name_flag (opts : List OptionDefinition) (idx i : Nat) : Nat :=
  match opts.get? (i - idx) with
  | some o => if idx ≤ i ∧ (validate_names o.long_names).1 = 0 then 1 else 0
  | none => 0

theorem has_name_go_count_must :
    ∀ (opts : List OptionDefinition) (idx i : Nat),
      (validate_has_name_go idx opts).2.count (Diag.mustHaveLongName i) =
        missing_long_name_flag opts idx i := by
  intro opts
  induction opts with
  | nil => intro idx i; rfl
  | cons o rest ih =>
    intro idx i
    rw [validate_has_name_go]
    simp only [List.count_append, validate_names_count_must, ih]
    rcases Nat.lt_trichotomy i idx with hlt | heq | hgt
    · have hmid :
          (if ((validate_names o.long_names).1 = 0 : Bool) = true
            then [Diag.mustHaveLongName idx] else []).count
              (Diag.mustHaveLongName i) = 0 := by
        split
        · rw [List.count_singleton', if_neg (by simp; omega)]
        · rfl
      rw [hmid]
      unfold missing_long_name_flag
      have h1 : i - idx = 0 := by omega
      have h2 : i - (idx + 1) = 0 := by omega
      rw [h1, h2]
      simp only [List.get?_cons_zero]
      have hno : ¬(idx + 1 ≤ i) := by omega
      have hno2 : ¬(idx ≤ i) := by omega
      rcases hr : rest.get? 0 with _ | o2
      · simp [hno2]
      · simp [hno, hno2]
    · subst heq
      have h1 : i - i = 0 := by omega
      have h2 : i - (i + 1) = 0 := by omega
      unfold missing_long_name_flag
      rw [h1, h2]
      simp only [List.get?_cons_zero]
      have hno : ¬(i + 1 ≤ i) := by omega
      have hrec : (match rest.get? 0 with
          | some o2 => if i + 1 ≤ i ∧ (validate_names o2.long_names).1 = 0
              then 1 else 0
          | none => 0) = 0 := by
        rcases hr : rest.get? 0 with _ | o2
        · rfl
        · simp [hno]
      rw [hrec]
      by_cases hm : (validate_names o.long_names).1 = 0
      · have hbm : (decide ((validate_names o.long_names).1 = 0)) = true := by
          simpa using hm
        rw [if_pos hbm, List.count_singleton', if_pos rfl,
          if_pos (⟨Nat.le_refl i, hm⟩ : i ≤ i ∧
            (validate_names o.long_names).1 = 0)]
      · have hbm : ¬(decide ((validate_names o.long_names).1 = 0) = true) := by
          simpa using hm
        rw [if_neg hbm, if_neg (fun hc => hm hc.2)]
        rfl
    · have hmid :
          (if ((validate_names o.long_names).1 = 0 : Bool) = true
            then [Diag.mustHaveLongName idx] else []).count
              (Diag.mustHaveLongName i) = 0 := by
        split
        · rw [List.count_singleton', if_neg (by simp; omega)]
        · rfl
      rw [hmid]
      unfold missing_long_name_flag
      have h1 : i - idx = (i - (idx + 1)) + 1 := by omega
      rw [h1]
      simp only [List.get?_cons_succ]
      have hiff : (idx + 1 ≤ i) ↔ (idx ≤ i) := by
        constructor <;> (intro; omega)
      rcases hr : rest.get? (i - (idx + 1)) with _ | o2
      · rfl
      · simp [hiff]

theorem count_map_dup (l : List String) (n : String) :
    (l.map Diag.nameUsedMultipleTimes).count (Diag.nameUsedMultipleTimes n) =
      l.count n := by
  induction l with
  | nil => rfl
  | cons a rest ih =>
    simp only [List.map_cons, List.count_cons, ih]
    by_cases hab : n = a
    · subst hab; simp
    · have h1 : (Diag.nameUsedMultipleTimes a ==
          Diag.nameUsedMultipleTimes n) = false := by
        rw [beq_eq_false_iff_ne]
        intro h
        injection h with h'
        exact hab h'.symm
      have h2 : (a == n) = false := by
        rw [beq_eq_false_iff_ne]
        exact fun h => hab h.symm
      rw [h1, h2]

theorem count_map_dup_other_must (l : List String) (i : Nat) :
    (l.map Diag.nameUsedMultipleTimes).count (Diag.mustHaveLongName i) = 0 := by
  induction l with
  | nil => rfl
  | cons a rest ih => simp [List.count_cons, ih]

theorem count_map_dup_other_forbidden (l : List String) (n : String) :
    (l.map Diag.nameUsedMultipleTimes).count (Diag.forbiddenEquals n) = 0 := by
  induction l with
  | nil => rfl
  | cons a rest ih => simp [List.count_cons, ih]

theorem nodup_dedup_first_aux :
    ∀ (l seen : List String), (dedup_first_aux seen l).Nodup := by
  intro l
  induction l with
  | nil => intro seen; exact List.nodup_nil
  | cons b rest ih =>
    intro seen
    rw [dedup_first_aux]
    split
    · exact ih seen
    · refine List.Nodup.cons ?_ (ih (b :: seen))
      intro hmem
      rw [mem_dedup_first_aux] at hmem
      exact hmem.2 (List.mem_cons_self b seen)

theorem duplicated_names_count (options : List OptionDefinition) (n : String) :
    (((dedup_first (all_names options)).filter
        (fun m => decide (1 < (all_names options).count m))).count n) =
      if 1 < (all_names options).count n then 1 else 0 := by
  set names := all_names options with hnames
  have hnd : ((dedup_first names).filter
      (fun m => decide (1 < names.count m))).Nodup :=
    List.Nodup.filter _ (nodup_dedup_first_aux names [])
  by_cases hdup : 1 < names.count n
  · rw [if_pos hdup]
    have hmem : n ∈ (dedup_first names).filter
        (fun m => decide (1 < names.count m)) := by
      rw [List.mem_filter]
      refine ⟨(mem_dedup_first names n).mpr ?_, by simpa using hdup⟩
      exact List.count_pos_iff_mem.mp (by omega)
    exact List.count_eq_one_of_mem hnd hmem
  · rw [if_neg hdup]
    refine List.count_eq_zero_of_not_mem ?_
    intro hmem
    rw [List.mem_filter] at hmem
    exact hdup (by simpa using hmem.2)

theorem mem_concat_map_iff {f : α → List β} {b : β} :
    ∀ {l : List α}, b ∈ concat_map f l ↔ ∃ a ∈ l, b ∈ f a := by
  intro l
  induction l with
  | nil => simp [concat_map]
  | cons x rest ih =>
    rw [concat_map]
    simp only [List.mem_append, ih, List.mem_cons]
    constructor
    · rintro (h | ⟨a, ha, hb⟩)
      · exact ⟨x, Or.inl rfl, h⟩
      · exact ⟨a, Or.inr ha, hb⟩
    · rintro ⟨a, ha | ha, hb⟩
      · subst ha; exact Or.inl hb
      · exact Or.inr ⟨a, ha, hb⟩

theorem unique_err_iff (options : List OptionDefinition) :
    (validate_unique_names options).1 = true ↔
      ∃ n, 1 < (all_names options).count n := by
  unfold validate_unique_names
  simp only [Bool.not_eq_true', List.isEmpty_iff]
  constructor
  · intro h
    rcases hd : (dedup_first (all_names options)).filter
        (fun n => decide (1 < (all_names options).count n)) with _ | ⟨m, ms⟩
    · rw [hd] at h; simp at h
    · have hm : m ∈ (dedup_first (all_names options)).filter
          (fun n => decide (1 < (all_names options).count n)) := by
        rw [hd]; exact List.mem_cons_self m ms
      rw [List.mem_filter] at hm
      exact ⟨m, by simpa using hm.2⟩
  · rintro ⟨n, hn⟩
    rw [List.isEmpty_eq_false]
    intro hnil
    have hmem : n ∈ (dedup_first (all_names options)).filter
        (fun m => decide (1 < (all_names options).count m)) := by
      rw [List.mem_filter]
      refine ⟨(mem_dedup_first _ n).mpr ?_, by simpa using hn⟩
      exact List.count_pos_iff_mem.mp (by omega)
    rw [hnil] at hmem
    simp at hmem

theorem validate_names_diags_ne_iff (l : List String) :
    (validate_names l).2 ≠ [] ↔ ∃ x ∈ l, x.toList.contains '=' = true := by
  induction l with
  | nil => simp [validate_names]
  | cons name rest ih =>
    rw [validate_names]
    simp only [ne_eq, List.append_eq_nil, not_and]
    constructor
    · intro h
      by_cases hc : name.toList.contains '=' = true
      · exact ⟨name, List.mem_cons_self name rest, hc⟩
      · rw [if_neg hc] at h
        have := h rfl
        obtain ⟨x, hx, hxc⟩ := ih.mp this
        exact ⟨x, List.mem_cons_of_mem name hx, hxc⟩
    · rintro ⟨x, hx, hxc⟩
      rcases List.mem_cons.mp hx with hx | hx
      · subst hx
        rw [if_pos hxc]
        intro h
        exact absurd h (by simp)
      · intro _
        exact ih.mpr ⟨x, hx, hxc⟩

theorem validate_names_num_zero_iff (l : List String) :
    (validate_names l).1 = 0 ↔ ∀ x ∈ l, x = "" := by
  induction l with
  | nil => simp [validate_names]
  | cons name rest ih =>
    rw [validate_names]
    simp only [List.mem_cons]
    constructor
    · intro h
      have h1 : (if name.length > 0 then 1 else 0) = 0 ∧
          (validate_names rest).1 = 0 := by
        by_cases hl : name.length > 0
        · rw [if_pos hl] at h; omega
        · rw [if_neg hl] at h; simp at h; exact ⟨by rw [if_neg hl], h⟩
      intro x hx
      rcases hx with hx | hx
      · subst hx
        by_cases hl : x.length > 0
        · rw [if_pos hl] at h1; exact absurd h1.1 (by simp)
        · have hx : x.length = 0 := by omega
          exact String.ext (List.length_eq_zero.mp hx)
      · exact ih.mp h1.2 x hx
    · intro h
      have hname : name = "" := h name (Or.inl rfl)
      subst hname
      have : (validate_names rest).1 = 0 :=
        ih.mpr (fun x hx => h x (Or.inr hx))
      simp [this]

theorem has_name_go_err_iff :
    ∀ (opts : List OptionDefinition) (idx : Nat),
      (validate_has_name_go idx opts).1 = true ↔
        ∃ o ∈ opts, ((validate_names o.long_names).2 ≠ [] ∨
          (validate_names o.long_names).1 = 0 ∨
          (validate_names o.short_names).2 ≠ []) := by
  intro opts
  induction opts with
  | nil => intro idx; simp [validate_has_name_go]
  | cons o rest ih =>
    intro idx
    rw [validate_has_name_go]
    simp only [Bool.or_eq_true, Bool.not_eq_true', List.isEmpty_eq_false,
      decide_eq_true_eq, List.mem_cons, ne_eq]
    rw [ih (idx + 1)]
    constructor
    · rintro ((((h | h) | h)) | ⟨a, ha, hor⟩)
      · exact ⟨o, Or.inl rfl, Or.inl h⟩
      · exact ⟨o, Or.inl rfl, Or.inr (Or.inl h)⟩
      · exact ⟨o, Or.inl rfl, Or.inr (Or.inr h)⟩
      · exact ⟨a, Or.inr ha, hor⟩
    · rintro ⟨a, ha | ha, hor⟩
      · subst ha
        rcases hor with h | h | h
        · exact Or.inl (Or.inl (Or.inl h))
        · exact Or.inl (Or.inl (Or.inr h))
        · exact Or.inl (Or.inr h)
      · exact Or.inr ⟨a, ha, hor⟩

/-- Claim C6 (amended): the definition validator raises its fatal error
(distinct from a normal parse failure) if and only if some name *occurrence*
across all definitions' long and short name lists is duplicated — counted
with multiplicity, so a name repeated inside a single definition also
raises — or some definition has no non-empty long name, or some name
contains '='.  It does not stop at the first problem: the emitted
diagnostic list holds exactly one duplicate-name diagnostic per duplicated
name, one missing-long-name diagnostic per offending definition, and one
forbidden-'=' diagnostic per offending name occurrence. -/
theorem claim_C6 (options : List OptionDefinition) :
    ((validate_definition options).1 = true ↔
      ((∃ n, 1 < (all_names options).count n) ∨
       (∃ o ∈ options, ∀ ln ∈ o.long_names, ln = "") ∨
       (∃ n ∈ all_names options, n.toList.contains '=' = true))) ∧
    (∀ n, (validate_definition options).2.count (Diag.nameUsedMultipleTimes n) =
      if 1 < (all_names options).count n then 1 else 0) ∧
    (∀ i, (validate_definition options).2.count (Diag.mustHaveLongName i) =
      missing_long_name_flag options 1 i) ∧
    (∀ n, (validate_definition options).2.count (Diag.forbiddenEquals n) =
      if n.toList.contains '=' = true then (all_names options).count n else 0) := by
  refine ⟨?_, ?_, ?_, ?_⟩
  · unfold validate_definition validate_has_name
    rw [Bool.or_eq_true, unique_err_iff, has_name_go_err_iff options 1]
    constructor
    · rintro (h | ⟨o, ho, hor⟩)
      · exact Or.inl h
      · rcases hor with h | h | h
        · obtain ⟨x, hx, hxc⟩ := (validate_names_diags_ne_iff _).mp h
          refine Or.inr (Or.inr ⟨x, ?_, hxc⟩)
          exact mem_concat_map ho (List.mem_append_left _ hx)
        · exact Or.inr (Or.inl ⟨o, ho, (validate_names_num_zero_iff _).mp h⟩)
        · obtain ⟨x, hx, hxc⟩ := (validate_names_diags_ne_iff _).mp h
          refine Or.inr (Or.inr ⟨x, ?_, hxc⟩)
          exact mem_concat_map ho (List.mem_append_right _ hx)
    · rintro (h | ⟨o, ho, hall⟩ | ⟨n, hn, hnc⟩)
      · exact Or.inl h
      · exact Or.inr ⟨o, ho,
          Or.inr (Or.inl ((validate_names_num_zero_iff _).mpr hall))⟩
      · obtain ⟨o, ho, hmem⟩ := mem_concat_map_iff.mp hn
        rcases List.mem_append.mp hmem with hmem | hmem
        · exact Or.inr ⟨o, ho,
            Or.inl ((validate_names_diags_ne_iff _).mpr ⟨n, hmem, hnc⟩)⟩
        · exact Or.inr ⟨o, ho,
            Or.inr (Or.inr ((validate_names_diags_ne_iff _).mpr
              ⟨n, hmem, hnc⟩))⟩
  · intro n
    unfold validate_definition validate_unique_names validate_has_name
    rw [List.count_append, count_map_dup, has_name_go_count_dup,
      duplicated_names_count]
    omega
  · intro i
    unfold validate_definition validate_unique_names validate_has_name
    rw [List.count_append, count_map_dup_other_must,
      has_name_go_count_must options 1 i]
    omega
  · intro n
    unfold validate_definition validate_unique_names validate_has_name
    rw [List.count_append, count_map_dup_other_forbidden,
      has_name_go_count_forbidden options 1 n]
    omega

theorem claim_C8_witness :
    (parse_int64 "abc".toList).1 = false ∧
    ¬((1 : Int) ≤ (parse_int64 "abc".toList).2 ∧
        (parse_int64 "abc".toList).2 ≤ 100) ∧
    parameter_validate (ParamDef.integerParam "value" 1 100 true)
      "opt" "abc" 1 = some (Diag.argOutOfRange "opt" 1 1 100) :=
  ⟨by decide, by decide,
    (claim_C8 "value" "opt" "abc" 1 100 1 (by decide)).1 (by decide)⟩

end LlavaServer
